import Mathlib

/-!
# United Colors Effect: a verification development

The repository holds two variants of one program.

* `ImageChange.cpp` keeps the image, the changed image and the delta matrix (`convertingMatrix`)
  in global variables and walks them with row pointers.
* `united_colors_effect.cpp` passes `cv::Mat` objects around and walks them with matrix iterators.

Both are embedded below, each in a namespace named after its file.  Shared C++ semantics (loops,
integer conversions, the `double` to `int` conversion) live in the namespace `Cxx`.

Modelling conventions.

* `uchar` values are natural numbers; an image is well formed when they are below 256.
* `short` and `int` values are integers; a narrowing conversion is an explicit reduction
  (`Cxx.toShort`, `Cxx.toUchar`).
* A `double` is the rational number it stands for, and every `double` operation written in the
  two source files is the exact operation followed by rounding to the nearest `double`, ties to
  even (`Cxx.roundDouble`, `Cxx.dadd`, `Cxx.dmul`, `Cxx.ddiv`).  The arithmetic inside OpenCV's
  matrix expression (`original + multiplier * transforming` in `united_colors_effect.cpp`) is the
  library's; it is modelled without intermediate rounding, which makes no difference at the
  slider positions 0 and 100, where the multiplier is 0 or 1.
* Memory handed out by `new` or by the `cv::Mat` constructor is not initialised; its content is a
  parameter (`uninit`) of the functions that allocate.
* Counts of rows, columns and channels are `int` in the source and never negative; they are
  natural numbers here.  The index of the backslash loop is an `int` that grows with the string;
  its overflow is undefined behaviour and is modelled as a failure (`Cxx.incr`).
* An access outside a buffer is undefined in C++.  In `fill_transform_matrix`, where the source
  can reach one, it is modelled as undefined behaviour (the result `none`).  In `ImageChange.cpp`
  the row pointers are indexed below `nCols`, inside every row of a well-formed image; there a
  read outside gives the default value and a write outside is dropped, and neither is reached on
  a well-formed image.
* The codec (`cv::imread`, `cv::imwrite`) and the window are outside the repository.  The image
  a codec returns is a parameter; what is written is the image handed to the codec.
-/

set_option autoImplicit false

namespace Cxx

/-- The loop `for (i = start; i < stop; i += step) body(i)`, run for at most `fuel` iterations. -/
def forFrom {σ : Type} (stop step : Nat) (body : Nat → σ → σ) : Nat → Nat → σ → σ
  | 0, _, s => s
  | fuel + 1, i, s => if i < stop then forFrom stop step body fuel (i + step) (body i s) else s

/-- The loop `for (i = 0; i < stop; i += step) body(i)`; with a positive step `stop` iterations
of fuel are enough (`forFrom_eq_foldl`). -/
def forLoop {σ : Type} (stop step : Nat) (body : Nat → σ → σ) (s : σ) : σ :=
  forFrom stop step body stop 0 s

/-- Conversion of an `int` to `short` (16 bit, two's complement). -/
def toShort (x : Int) : Int := (x + 32768) % 65536 - 32768

/-- Conversion of an `int` to `uchar` (reduction modulo 256). -/
def toUchar (x : Int) : Nat := (x % 256).toNat

/-- Conversion of a `double` to `int`: the fractional part is discarded (truncation toward
zero). -/
def truncToInt (x : ℚ) : Int := if 0 ≤ x then ⌊x⌋ else ⌈x⌉

/-- Clamping of an `int` into the `uchar` range, the saturating alternative to `toUchar`. -/
def saturateUchar (x : Int) : Nat := if x < 0 then 0 else if 255 < x then 255 else x.toNat

/-- The nearest integer, ties to the even one. -/
def roundHalfEven (y : ℚ) : Int :=
  if y - ⌊y⌋ < 1 / 2 then ⌊y⌋
  else if 1 / 2 < y - ⌊y⌋ then ⌊y⌋ + 1
  else if ⌊y⌋ % 2 = 0 then ⌊y⌋ else ⌊y⌋ + 1

/-- Rounding of a real value to `double` (IEEE 754 binary64, round to nearest, ties to even):
the value is scaled by the power of two that makes its 53 leading bits the integer part,
rounded, and scaled back.  The exponent range of `double` is not modelled; every value in this
program lies far inside it. -/
def roundDouble (x : ℚ) : ℚ :=
  if x = 0 then 0
  else (roundHalfEven (x / (2 : ℚ) ^ (Int.log 2 |x| - 52)) : ℚ) * (2 : ℚ) ^ (Int.log 2 |x| - 52)

/-- Addition of two `double` values: the exact sum, rounded. -/
def dadd (a b : ℚ) : ℚ := roundDouble (a + b)

/-- Multiplication of two `double` values: the exact product, rounded. -/
def dmul (a b : ℚ) : ℚ := roundDouble (a * b)

/-- Division of two `double` values: the exact quotient, rounded. -/
def ddiv (a b : ℚ) : ℚ := roundDouble (a / b)

/-- Largest value of an `int` (32 bit). -/
def INT_MAX : Nat := 2147483647

/-- The increment `i++` of a non-negative `int`; overflow is undefined behaviour (`none`). -/
def incr (i : Nat) : Option Nat := if i < INT_MAX then some (i + 1) else none

/-- The loop that `convert_slash_string` and `getFilePath` share word for word:
`while (i < s.length()) { if (s[i] == '\\') { s.insert(i, "\\"); i++; } i++; }`,
run for at most `fuel` iterations.  The result is `none` when the fuel runs out or when the `int`
index overflows. -/
def slashLoop : Nat → List Char → Nat → Option (List Char)
  | 0, _, _ => none
  | fuel + 1, file_path, i =>
    if i < file_path.length then
      if file_path.getD i ' ' = '\\' then
        (incr i).bind fun i1 => (incr i1).bind fun i2 =>
          slashLoop fuel (file_path.insertIdx i '\\') i2
      else
        (incr i).bind fun i1 => slashLoop fuel file_path i1
    else some file_path

/-- The specification of the loop: every backslash is replaced by two backslashes, every other
character is kept, in the same order. -/
def doubleBackslashes (s : List Char) : List Char :=
  s.flatMap (fun c => if c = '\\' then ['\\', '\\'] else [c])

end Cxx

namespace ImageChange

open Cxx

/-- Constant `EFFECT_SLIDER_MAX` of `ImageChange.cpp`. -/
def EFFECT_SLIDER_MAX : Int := 100

/-- An 8-bit `cv::Mat`: `data[i]` is the byte row that `ptr<uchar>(i)` points to, holding
`cols * channels` values. -/
structure Mat where
  rows : Nat
  cols : Nat
  channels : Nat
  data : List (List Nat)
  deriving DecidableEq, Repr

/-- The row pointer `m.ptr<uchar>(i)`. -/
def Mat.ptr (m : Mat) (i : Nat) : List Nat := m.data.getD i []

/-- The byte `m.ptr<uchar>(i)[j]`, promoted to `int`. -/
def Mat.px (m : Mat) (i j : Nat) : Int := ((m.ptr i).getD j 0 : Nat)

/-- The byte stored at row `i`, position `j`, when there is one. -/
def Mat.byteAt (m : Mat) (i j : Nat) : Option Nat := (m.ptr i)[j]?

/-- The shape recorded in the header is the shape of the data, and every value is a byte. -/
def Mat.WellFormed (m : Mat) : Prop :=
  m.data.length = m.rows ∧ ∀ r ∈ m.data, r.length = m.cols * m.channels ∧ ∀ v ∈ r, v < 256

instance (m : Mat) : Decidable m.WellFormed := by
  unfold Mat.WellFormed
  infer_instance

/-- The global variables of `ImageChange.cpp`. -/
structure Globals where
  effectDegreeProcent : Int
  effectDegreeMultiplier : ℚ
  nChannels : Nat
  nRows : Nat
  nCols : Nat
  imgOriginal : Mat
  imgChanged : Mat
  imgLoaded : Mat
  convertingMatrix : List (List Int)

/-- The entry `convertingMatrix[i][j]`, when there is one. -/
def Globals.deltaAt (g : Globals) (i j : Nat) : Option Int := (g.convertingMatrix.getD i [])[j]?

/-- The `double` that `onTrackbarChanged` computes for `effectDegreeMultiplier` when the slider
is at `pos`: `(double)effectDegreeProcent / EFFECT_SLIDER_MAX`. -/
def multiplierAt (pos : Int) : ℚ := ddiv (pos : ℚ) (EFFECT_SLIDER_MAX : ℚ)

/-- The `double` that `onTrackbarChanged` computes for one channel:
`pixelOriginalImg[j] + effectDegreeMultiplier * convertingMatrix[i][j]`, the two integers
converted to `double` without error. -/
def blendValue (original : Nat) (multiplier : ℚ) (delta : Int) : ℚ :=
  dadd (original : ℚ) (dmul multiplier (delta : ℚ))

/-- The value `onTrackbarChanged` stores for one channel:
`static_cast<int>(original + multiplier * delta)` narrowed to `uchar`. -/
def blendChannel (original : Nat) (multiplier : ℚ) (delta : Int) : Nat :=
  toUchar (truncToInt (blendValue original multiplier delta))

/-- The value `original + (p / 100) * delta` with `p / 100` taken as an exact fraction and no
rounding, as the specification reads the formula. -/
def exactValue (v : Nat) (p d : Int) : ℚ := (v : ℚ) + (p : ℚ) / 100 * (d : ℚ)

/-- The rule as the specification words it, with `p / 100` an exact fraction: the product
`(p / 100) * d` is truncated toward zero, added to `v`, and the sum is reduced modulo 256. -/
def truncatedProductBlend (v : Nat) (p d : Int) : Nat :=
  toUchar ((v : Int) + truncToInt ((p : ℚ) / 100 * (d : ℚ)))

/-- The inner loop of `onTrackbarChanged` on one row. -/
def blendRow (nCols : Nat) (multiplier : ℚ) (pixelOriginalImg : List Nat)
    (convertingRow : List Int) (pixelChangedImg : List Nat) : List Nat :=
  forLoop nCols 1
    (fun j row => row.set j (blendChannel (pixelOriginalImg.getD j 0) multiplier
      (convertingRow.getD j 0)))
    pixelChangedImg

/-- Function `onTrackbarChanged`: recompute `imgChanged` from `imgOriginal`, the delta matrix and
the slider position `effectDegreeProcent`. -/
def onTrackbarChanged (g : Globals) : Globals :=
  let multiplier : ℚ := multiplierAt g.effectDegreeProcent
  let data := forLoop g.nRows 1
    (fun i data => data.set i
      (blendRow g.nCols multiplier (g.imgOriginal.ptr i) (g.convertingMatrix.getD i [])
        (data.getD i [])))
    g.imgChanged.data
  { g with effectDegreeMultiplier := multiplier
           imgChanged := { g.imgChanged with data := data } }

/-- The `double` that `onTrackbarChanged` computes at row `i`, position `j` when the slider is at
`pos`. -/
def Globals.computedValue (g : Globals) (i j : Nat) (pos : Int) : ℚ :=
  blendValue ((g.imgOriginal.ptr i).getD j 0) (multiplierAt pos)
    ((g.convertingMatrix.getD i []).getD j 0)

/-- The value at row `i`, position `j` and slider position `pos` with `pos / 100` taken as an
exact fraction and no rounding. -/
def Globals.exactValueAt (g : Globals) (i j : Nat) (pos : Int) : ℚ :=
  exactValue ((g.imgOriginal.ptr i).getD j 0) pos ((g.convertingMatrix.getD i []).getD j 0)

/-- The trackbar writes the new position into `effectDegreeProcent` and calls the callback. -/
def sliderMoved (g : Globals) (pos : Int) : Globals :=
  onTrackbarChanged { g with effectDegreeProcent := pos }

/-- One iteration of the 3-channel loop of `createConvertingMatrix`. -/
def deltaStep3 (pixelOriginalImg : List Nat) (j : Nat) (row : List Int) : List Int :=
  ((row.set j (toShort (-(pixelOriginalImg.getD j 0 : Int)))).set (j + 1)
    (toShort ((pixelOriginalImg.getD (j + 2) 0 : Int) - (pixelOriginalImg.getD (j + 1) 0 : Int)))).set
    (j + 2) (toShort (255 - (pixelOriginalImg.getD (j + 2) 0 : Int)))

/-- One iteration of the 4-channel loop of `createConvertingMatrix`. -/
def deltaStep4 (pixelOriginalImg : List Nat) (j : Nat) (row : List Int) : List Int :=
  (deltaStep3 pixelOriginalImg j row).set (j + 3) 0

/-- The value that iteration `q` of the 3-channel loop writes for channel `c`. -/
def delta3 (pix : List Nat) (q c : Nat) : Int :=
  if c = 0 then toShort (-(pix.getD (q * 3) 0 : Int))
  else if c = 1 then toShort ((pix.getD (q * 3 + 2) 0 : Int) - (pix.getD (q * 3 + 1) 0 : Int))
  else toShort (255 - (pix.getD (q * 3 + 2) 0 : Int))

/-- The value that iteration `q` of the 4-channel loop writes for channel `c`. -/
def delta4 (pix : List Nat) (q c : Nat) : Int :=
  if c = 0 then toShort (-(pix.getD (q * 4) 0 : Int))
  else if c = 1 then toShort ((pix.getD (q * 4 + 2) 0 : Int) - (pix.getD (q * 4 + 1) 0 : Int))
  else if c = 2 then toShort (255 - (pix.getD (q * 4 + 2) 0 : Int))
  else 0

/-- The memory obtained by `new short*[nRows]` and `new short[nCols]` for every row; `uninit i j`
is the indeterminate value found at `[i][j]`. -/
def allocMatrix (nRows nCols : Nat) (uninit : Nat → Nat → Int) : List (List Int) :=
  (List.range nRows).map (fun i => (List.range nCols).map (fun j => uninit i j))

/-- Function `createConvertingMatrix`: allocate the delta matrix, clone the image into
`imgChanged`, and fill the matrix when `nChannels` is 3 or 4 (the `switch` has no other case). -/
def createConvertingMatrix (uninit : Nat → Nat → Int) (g : Globals) : Globals :=
  let g := { g with convertingMatrix := allocMatrix g.nRows g.nCols uninit
                    imgChanged := g.imgOriginal }
  match g.nChannels with
  | 3 =>
    let filled := forLoop g.nRows 1
      (fun i cm => cm.set i
        (forLoop g.nCols g.nChannels (deltaStep3 (g.imgOriginal.ptr i)) (cm.getD i [])))
      g.convertingMatrix
    { g with convertingMatrix := filled }
  | 4 =>
    let filled := forLoop g.nRows 1
      (fun i cm => cm.set i
        (forLoop g.nCols g.nChannels (deltaStep4 (g.imgOriginal.ptr i)) (cm.getD i [])))
      g.convertingMatrix
    { g with convertingMatrix := filled }
  | _ => g

/-- OpenCV's `cvtColor(src, dst, CV_GRAY2RGB)`: every grey value becomes the three equal values
of an RGB pixel. -/
def cvtColorGray2Rgb (src : Mat) : Mat :=
  { src with channels := 3, data := src.data.map (fun r => r.flatMap (fun v => [v, v, v])) }

/-- Function `createRgbImage`: a 1-channel image is converted to RGB, any other image is taken
as it is. -/
def createRgbImage (g : Globals) : Globals :=
  let g := { g with nChannels := g.imgLoaded.channels }
  if g.nChannels = 1 then
    { g with nChannels := g.imgOriginal.channels, imgOriginal := cvtColorGray2Rgb g.imgLoaded }
  else { g with imgOriginal := g.imgLoaded }

/-- The globals at program start: numbers are zero, matrices are empty. -/
def initialGlobals : Globals :=
  { effectDegreeProcent := 0, effectDegreeMultiplier := 0, nChannels := 0, nRows := 0, nCols := 0
    imgOriginal := ⟨0, 0, 1, []⟩, imgChanged := ⟨0, 0, 1, []⟩, imgLoaded := ⟨0, 0, 1, []⟩
    convertingMatrix := [] }

/-- The globals that `main` hands to `createConvertingMatrix` for an image that is not grey. -/
def loadedGlobals (img : Mat) : Globals :=
  { initialGlobals with
    imgLoaded := img, imgOriginal := img, nChannels := img.channels, nRows := img.rows
    nCols := img.cols * img.channels }

/-- Function `main` up to and including the call of `createConvertingMatrix`; `imgLoaded` is the
image that `openFile` obtained from `cv::imread`. -/
def mainBuild (uninit : Nat → Nat → Int) (imgLoaded : Mat) : Globals :=
  let g := createRgbImage { initialGlobals with imgLoaded := imgLoaded }
  let g := { g with nChannels := g.imgOriginal.channels }
  let g := { g with nRows := g.imgOriginal.rows }
  let g := { g with nCols := g.imgOriginal.cols * g.nChannels }
  createConvertingMatrix uninit g

/-- The slider positions that arrive while `main` waits in `cv::waitKey(0)`, handled in order. -/
def runSlider (g : Globals) (events : List Int) : Globals :=
  events.foldl sliderMoved g

/-- Function `saveChangedImage`, reduced to what it hands to `cv::imwrite`: the file name suffix
and the image. -/
def saveChangedImage (g : Globals) : String × Mat :=
  if g.nChannels = 4 then ("-1.png", g.imgChanged) else ("-1.jpg", g.imgChanged)

/-- Function `main`: build, handle the slider events, save.  The result is the image given to
`cv::imwrite`. -/
def main (uninit : Nat → Nat → Int) (imgLoaded : Mat) (events : List Int) : Mat :=
  (saveChangedImage (runSlider (mainBuild uninit imgLoaded) events)).2

/-- Function `getFilePath` after the token `input` was read from `std::cin`: the backslash
loop. -/
def getFilePath (input : List Char) : Option (List Char) :=
  slashLoop (input.length + 1) input 0

end ImageChange

namespace UnitedColorsEffect

open Cxx

/-- Constant `EFFECT_SLIDER_MAX` of `united_colors_effect.cpp`. -/
def EFFECT_SLIDER_MAX : Int := 100

/-- Constant `N_RGB_CHANNELS`. -/
def N_RGB_CHANNELS : Nat := 3

/-- OpenCV depth code `CV_16S`. -/
def CV_16S : Nat := 3

/-- OpenCV's `CV_MAKETYPE(depth, cn)`. -/
def CV_MAKETYPE (depth cn : Nat) : Nat := depth + (cn - 1) * 8

/-- OpenCV type code `CV_16SC3`. -/
def CV_16SC3 : Nat := CV_MAKETYPE CV_16S 3

/-- OpenCV type code `CV_16SC4`. -/
def CV_16SC4 : Nat := CV_MAKETYPE CV_16S 4

/-- OpenCV flag `cv::IMREAD_COLOR`. -/
def IMREAD_COLOR : Int := 1

/-- OpenCV flag `cv::IMREAD_UNCHANGED`. -/
def IMREAD_UNCHANGED : Int := -1

/-- A `cv::Mat` with continuous storage: `data` holds the scalars in row-major order,
`channels` of them for each of the `rows * cols` elements. -/
structure Mat where
  rows : Nat
  cols : Nat
  type : Nat
  data : List Int
  deriving DecidableEq, Repr

/-- Method `cv::Mat::channels` (`CV_MAT_CN`). -/
def Mat.channels (m : Mat) : Nat := m.type / 8 + 1

/-- Method `cv::Mat::total`: the number of elements (pixels). -/
def Mat.total (m : Mat) : Nat := m.rows * m.cols

/-- Method `cv::Mat::empty`. -/
def Mat.empty (m : Mat) : Bool := m.total == 0 || m.data.isEmpty

/-- The constructor `cv::Mat(rows, cols, type)` (and `cv::Mat::create` on an empty header): fresh
storage whose content `uninit` is indeterminate. -/
def Mat.alloc (rows cols type : Nat) (uninit : Nat → Int) : Mat :=
  { rows := rows, cols := cols, type := type
    data := (List.range (rows * cols * (type / 8 + 1))).map uninit }

/-- The storage has the size the header announces and holds bytes. -/
def Mat.WellFormed8U (m : Mat) : Prop :=
  m.data.length = m.total * m.channels ∧ ∀ v ∈ m.data, 0 ≤ v ∧ v < 256

instance (m : Mat) : Decidable m.WellFormed8U := by
  unfold Mat.WellFormed8U
  infer_instance

/-- Channel `c` of the element a matrix iterator points to after `k` increments, read from the
storage.  The iterator advances by the element size of the matrix it walks, whatever vector type
it is read as.  A read past the end of the storage is undefined behaviour (`none`). -/
def Mat.elem (m : Mat) (k c : Nat) : Option Int := m.data[k * m.channels + c]?

/-- The scalar of channel `c` of element `k`, and 0 where the storage holds no such scalar; it
serves to state what was read from a well-formed image. -/
def Mat.channelValue (m : Mat) (k c : Nat) : Int := m.data.getD (k * m.channels + c) 0

/-- A store of `x` at position `i` of the storage `d`.  A store past the end of the storage is
undefined behaviour (`none`). -/
def storeAt (d : List Int) (i : Nat) (x : Int) : Option (List Int) :=
  if i < d.length then some (d.set i x) else none

/-- One iteration of the 3-channel loop of `fill_transform_matrix`, statement by statement; the
iterator into the transform matrix advances by `stride` scalars. -/
def fillStep3 (stride : Nat) (img_original : Mat) (k : Nat) (d : List Int) :
    Option (List Int) :=
  (img_original.elem k 0).bind fun b0 =>
  (storeAt d (k * stride) (toShort (-b0))).bind fun d1 =>
  (img_original.elem k 2).bind fun b2 =>
  (img_original.elem k 1).bind fun b1 =>
  (storeAt d1 (k * stride + 1) (toShort (b2 - b1))).bind fun d2 =>
  (img_original.elem k 2).bind fun r2 =>
  storeAt d2 (k * stride + 2) (toShort (255 - r2))

/-- One iteration of the 4-channel loop of `fill_transform_matrix`. -/
def fillStep4 (stride : Nat) (img_original : Mat) (k : Nat) (d : List Int) :
    Option (List Int) :=
  (fillStep3 stride img_original k d).bind fun d3 => storeAt d3 (k * stride + 3) 0

/-- The value that iteration `k` of the 3-channel loop writes for channel `c` of a well-formed
image. -/
def fillValue3 (img_original : Mat) (k c : Nat) : Int :=
  if c = 0 then toShort (-(img_original.channelValue k 0))
  else if c = 1 then toShort (img_original.channelValue k 2 - img_original.channelValue k 1)
  else toShort (255 - img_original.channelValue k 2)

/-- The value that iteration `k` of the 4-channel loop writes for channel `c` of a well-formed
image. -/
def fillValue4 (img_original : Mat) (k c : Nat) : Int :=
  if c = 3 then 0 else fillValue3 img_original k c

/-- Function `fill_transform_matrix`: the 3-channel rule when the image has `N_RGB_CHANNELS`
channels, the 4-channel rule for every other channel count.  The result is `none` when an
iteration reads or writes past the end of a storage (undefined behaviour). -/
def fill_transform_matrix (transform_matrix img_original : Mat) : Option Mat :=
  if img_original.channels = N_RGB_CHANNELS then
    (forLoop img_original.total 1
      (fun k st => st.bind (fillStep3 transform_matrix.channels img_original k))
      (some transform_matrix.data)).map (fun data => { transform_matrix with data := data })
  else
    (forLoop img_original.total 1
      (fun k st => st.bind (fillStep4 transform_matrix.channels img_original k))
      (some transform_matrix.data)).map (fun data => { transform_matrix with data := data })

/-- Function `convert_slash_string`. -/
def convert_slash_string (file_path : List Char) : Option (List Char) :=
  slashLoop (file_path.length + 1) file_path 0

/-- Struct `EffectContext`. -/
structure EffectContext where
  original_img : Mat
  transforming_matrix : Mat
  changed_img : Mat
  effect_degree_procent : Int
  deriving DecidableEq, Repr

/-- OpenCV's `cvRound`: the nearest integer, ties to the even one. -/
def cvRound (x : ℚ) : Int :=
  if x - ⌊x⌋ < 1 / 2 then ⌊x⌋
  else if 1 / 2 < x - ⌊x⌋ then ⌊x⌋ + 1
  else if ⌊x⌋ % 2 = 0 then ⌊x⌋ else ⌊x⌋ + 1

/-- OpenCV's `saturate_cast<short>` of an integer. -/
def saturateShort (x : Int) : Int := if x < -32768 then -32768 else if 32767 < x then 32767 else x

/-- Function `on_trackbar_changed`.  The matrix expression `original + multiplier * transforming`
is evaluated element by element with OpenCV's rounding and saturation to `short`, and `convertTo`
saturates to `uchar` and stores into the storage of `changed_img`, which the local copy of the
context shares with the context of `main`.  OpenCV raises an error (`none`) when the two
operands differ in size or type. -/
def on_trackbar_changed (context : EffectContext) : Option EffectContext :=
  let effect_degree_multiplier : ℚ :=
    ddiv (context.effect_degree_procent : ℚ) (EFFECT_SLIDER_MAX : ℚ)
  if context.original_img.rows = context.transforming_matrix.rows ∧
      context.original_img.cols = context.transforming_matrix.cols ∧
      context.original_img.type = context.transforming_matrix.type then
    let temp : List Int := List.zipWith
      (fun (o d : Int) => saturateShort (cvRound ((o : ℚ) + effect_degree_multiplier * (d : ℚ))))
      context.original_img.data context.transforming_matrix.data
    some { context with
      changed_img := { context.changed_img with data := temp.map (fun t => (saturateUchar t : Int)) } }
  else none

/-- The ways in which `main` ends without reaching `image_save`: the usage message, the message
about the input file, undefined behaviour (in `convert_slash_string` or in
`fill_transform_matrix`), an error raised by OpenCV. -/
inductive Failure where
  | usage
  | wrongInput
  | undefinedBehaviour
  | opencvError
  deriving DecidableEq, Repr

/-- What `main` did, as far as the outside can tell: it failed, or it called `image_save`, which
gave the path and the image to the codec. -/
inductive Outcome where
  | failed (why : Failure)
  | saved (path : List Char) (img : Mat)
  deriving DecidableEq, Repr

/-- The locals of `main` when the window opens. -/
structure Session where
  img_original : Mat
  img_changed : Mat
  transform_matrix : Mat
  context : EffectContext
  deriving DecidableEq, Repr

/-- The test `argc == 4` and `strcmp(argv[3], "4") == 0` at the head of `main`: the caller says
that the image is RGBA. -/
def rgbaHint (argv : List (List Char)) : Bool :=
  if argv.length = 4 then (if argv.getD 3 [] = ['4'] then true else false) else false

/-- Function `main` from the argument check to the creation of the context.  `imread` is the
codec (`cv::imread`), a parameter of the model, and `uninit n` is the indeterminate content of
the `n`-th allocation.  A `Failure` ends the program. -/
def mainSetup (argv : List (List Char)) (imread : List Char → Int → Mat)
    (uninit : Nat → Nat → Int) : Except Failure Session :=
  let argc := argv.length
  let transform_matrix_type := if rgbaHint argv then CV_16SC4 else CV_16SC3
  let img_read_type := if rgbaHint argv then IMREAD_UNCHANGED else IMREAD_COLOR
  if argc ≠ 4 ∧ argc ≠ 3 then Except.error Failure.usage
  else
    match convert_slash_string (argv.getD 1 []) with
    | none => Except.error Failure.undefinedBehaviour
    | some file_path =>
      let img_original := imread file_path img_read_type
      if img_original.empty then Except.error Failure.wrongInput
      else
        let img_changed := Mat.alloc img_original.rows img_original.cols img_original.type (uninit 0)
        match fill_transform_matrix
            (Mat.alloc img_original.rows img_original.cols transform_matrix_type (uninit 1))
            img_original with
        | none => Except.error Failure.undefinedBehaviour
        | some transform_matrix =>
          let img_original_16s : Mat :=
            { img_original with
              type := CV_MAKETYPE (transform_matrix_type % 8) img_original.channels }
          Except.ok
            { img_original := img_original
              img_changed := img_changed
              transform_matrix := transform_matrix
              context :=
                { original_img := img_original_16s
                  transforming_matrix := transform_matrix
                  changed_img :=
                    Mat.alloc img_changed.rows img_changed.cols img_changed.type (uninit 2)
                  effect_degree_procent := 0 } }

/-- The slider positions that arrive while `main` waits in `cv::waitKey(0)`: the trackbar stores
the position in `context.effect_degree_procent` and calls `on_trackbar_changed`. -/
def runSlider (context : EffectContext) : List Int → Option EffectContext
  | [] => some context
  | pos :: rest =>
    (on_trackbar_changed { context with effect_degree_procent := pos }).bind
      fun context => runSlider context rest

/-- Function `main`: set up, handle the slider events, then `image_save(img_changed, argv[2])`.
The write itself is left to the codec; the outcome records the path and the image it is given. -/
def main (argv : List (List Char)) (imread : List Char → Int → Mat)
    (uninit : Nat → Nat → Int) (events : List Int) : Outcome :=
  match mainSetup argv imread uninit with
  | Except.error why => Outcome.failed why
  | Except.ok s =>
    match runSlider s.context events with
    | none => Outcome.failed Failure.opencvError
    | some _ =>
      match convert_slash_string (argv.getD 2 []) with
      | none => Outcome.failed Failure.undefinedBehaviour
      | some file_path => Outcome.saved file_path s.img_changed

end UnitedColorsEffect

/-! ## Loops -/

namespace Cxx

theorem forFrom_eq_foldl {σ : Type} (cols step : Nat) (hstep : 0 < step) (body : Nat → σ → σ) :
    ∀ (fuel q : Nat) (s : σ), cols - q ≤ fuel →
      forFrom (cols * step) step body fuel (q * step) s =
        (List.range' q (cols - q)).foldl (fun st k => body (k * step) st) s := by
  intro fuel
  induction fuel with
  | zero =>
    intro q s h
    have hz : cols - q = 0 := by omega
    simp [forFrom, hz]
  | succ fuel ih =>
    intro q s h
    by_cases hq : q < cols
    · have hlt : q * step < cols * step := Nat.mul_lt_mul_of_pos_right hq hstep
      have hsplit : cols - q = (cols - (q + 1)) + 1 := by omega
      have hnext : q * step + step = (q + 1) * step := by rw [Nat.succ_mul]
      rw [forFrom, if_pos hlt, hnext, ih (q + 1) _ (by omega), hsplit, List.range'_succ]
      simp
    · have hge : ¬ q * step < cols * step := by
        have : cols * step ≤ q * step := Nat.mul_le_mul_right step (by omega)
        omega
      have hz : cols - q = 0 := by omega
      rw [forFrom, if_neg hge, hz]
      simp

theorem forLoop_step_eq_foldl {σ : Type} (cols step : Nat) (hstep : 0 < step)
    (body : Nat → σ → σ) (s : σ) :
    forLoop (cols * step) step body s =
      (List.range cols).foldl (fun st k => body (k * step) st) s := by
  have h := forFrom_eq_foldl cols step hstep body (cols * step) 0 s
    (by
      have : cols * 1 ≤ cols * step := Nat.mul_le_mul_left cols hstep
      omega)
  rw [Nat.zero_mul] at h
  rw [forLoop, h, List.range_eq_range']
  simp

theorem forLoop_one_eq_foldl {σ : Type} (n : Nat) (body : Nat → σ → σ) (s : σ) :
    forLoop n 1 body s = (List.range n).foldl (fun st k => body k st) s := by
  have h := forLoop_step_eq_foldl n 1 (by decide) body s
  simpa using h

theorem foldl_range_induction {σ : Type} (P : Nat → σ → Prop) (body : Nat → σ → σ) (s : σ)
    (n : Nat) (h0 : P 0 s) (hs : ∀ i st, i < n → P i st → P (i + 1) (body i st)) :
    P n ((List.range n).foldl (fun st k => body k st) s) := by
  induction n with
  | zero => simpa using h0
  | succ n ih =>
    rw [List.range_succ, List.foldl_append]
    simp only [List.foldl_cons, List.foldl_nil]
    exact hs n _ (Nat.lt_succ_self n) (ih (fun i st hi hp => hs i st (Nat.lt_succ_of_lt hi) hp))

/-- A loop that rewrites cell `i` from its current content, for `i = 0, ..., n - 1`. -/
theorem foldl_modify_getElem? {α : Type} (h : Nat → α → α) (d : α) (n : Nat) (l0 : List α) :
    ∀ i, ((List.range n).foldl (fun l k => l.set k (h k (l.getD k d))) l0)[i]? =
      if i < n then l0[i]?.map (h i) else l0[i]? := by
  apply foldl_range_induction
    (fun k (l : List α) => ∀ i, l[i]? = if i < k then l0[i]?.map (h i) else l0[i]?)
    (fun k l => l.set k (h k (l.getD k d)))
  · intro i; simp
  · intro k l _ hP i
    have hk := hP k
    simp only [Nat.lt_irrefl, if_false] at hk
    rw [List.getElem?_set]
    by_cases hik : k = i
    · subst hik
      simp only [if_true, Nat.lt_succ_self]
      by_cases hlen : k < l.length
      · have hsome : l[k]? = some l[k] := List.getElem?_eq_getElem hlen
        rw [if_pos hlen, List.getD_eq_getElem?_getD, ← hk, hsome]
        simp
      · have hnone : l[k]? = none := List.getElem?_eq_none (by omega)
        rw [if_neg hlen, ← hk, hnone]
        simp
    · rw [if_neg hik, hP i]
      have : (i < k + 1) = (i < k) := by
        apply propext; constructor <;> intro h' <;> omega
      simp only [this]

theorem foldl_modify_length {α : Type} (h : Nat → α → α) (d : α) (n : Nat) (l0 : List α) :
    ((List.range n).foldl (fun l k => l.set k (h k (l.getD k d))) l0).length = l0.length := by
  apply foldl_range_induction (fun _ (l : List α) => l.length = l0.length)
    (fun k l => l.set k (h k (l.getD k d)))
  · rfl
  · intro k l _ hP
    simpa using hP

end Cxx

/-! ## Rounding to `double` -/

namespace Cxx

theorem roundHalfEven_sub_le (y : ℚ) : |(roundHalfEven y : ℚ) - y| ≤ 1 / 2 := by
  have h1 := Int.floor_le y
  have h2 := Int.lt_floor_add_one y
  unfold roundHalfEven
  rw [abs_le]
  split_ifs with a b c
  · constructor <;> linarith
  · push_cast; constructor <;> linarith
  · constructor <;> linarith
  · push_cast; constructor <;> linarith

theorem roundHalfEven_le_of_le (y : ℚ) (k : Int) (h : y ≤ k) : roundHalfEven y ≤ k := by
  have h1 := Int.floor_le y
  have hfl : ⌊y⌋ ≤ k := by
    have : ((⌊y⌋ : Int) : ℚ) ≤ k := le_trans h1 h
    exact_mod_cast this
  have hcase : ⌊y⌋ = k ∨ ⌊y⌋ + 1 ≤ k := by omega
  unfold roundHalfEven
  rcases hcase with hk | hk
  · have hy : y = k := le_antisymm h (by rw [← hk]; exact h1)
    have : y - ⌊y⌋ < 1 / 2 := by rw [hk, hy]; norm_num
    rw [if_pos this, hk]
  · split_ifs <;> omega

theorem roundHalfEven_ge_of_ge (y : ℚ) (k : Int) (h : (k : ℚ) ≤ y) : k ≤ roundHalfEven y := by
  have hfl : k ≤ ⌊y⌋ := Int.le_floor.mpr h
  unfold roundHalfEven
  split_ifs <;> omega

theorem roundHalfEven_eq_of_near (y : ℚ) (k : Int) (h : |y - k| < 1 / 2) :
    roundHalfEven y = k := by
  rw [abs_lt] at h
  have h0 := roundHalfEven_sub_le y
  rw [abs_le] at h0
  have h1 : ((roundHalfEven y - k : Int) : ℚ) < 1 := by push_cast; linarith
  have h2 : (-1 : ℚ) < ((roundHalfEven y - k : Int) : ℚ) := by push_cast; linarith
  have h3 : roundHalfEven y - k < 1 := by exact_mod_cast h1
  have h4 : -1 < roundHalfEven y - k := by exact_mod_cast h2
  omega


theorem two_zpow_pos (z : Int) : (0 : ℚ) < (2 : ℚ) ^ z := zpow_pos (by norm_num) z

/-- The binary exponent of a nonzero value brackets it. -/
theorem log_bracket (x : ℚ) (hx : x ≠ 0) :
    (2 : ℚ) ^ Int.log 2 |x| ≤ |x| ∧ |x| < (2 : ℚ) ^ (Int.log 2 |x| + 1) := by
  have hpos : 0 < |x| := abs_pos.mpr hx
  have h1 := Int.zpow_log_le_self (b := 2) (by norm_num) hpos
  have h2 := Int.lt_zpow_succ_log_self (b := 2) (by norm_num) |x|
  simp only [Nat.cast_ofNat] at h1 h2
  exact ⟨h1, h2⟩

theorem log_eq_of_bracket (x : ℚ) (e : Int) (h1 : (2 : ℚ) ^ e ≤ |x|)
    (h2 : |x| < (2 : ℚ) ^ (e + 1)) : Int.log 2 |x| = e := by
  have hpos : 0 < |x| := lt_of_lt_of_le (two_zpow_pos e) h1
  have a := (Int.zpow_le_iff_le_log (b := 2) (by norm_num) hpos (x := e)).mp
    (by simpa using h1)
  have b := (Int.lt_zpow_iff_log_lt (b := 2) (by norm_num) hpos (x := e + 1)).mp
    (by simpa using h2)
  omega

theorem log_lt_of_abs_lt (x : ℚ) (hx : x ≠ 0) (E : Int) (h : |x| < (2 : ℚ) ^ E) :
    Int.log 2 |x| < E := by
  have hpos : 0 < |x| := abs_pos.mpr hx
  exact (Int.lt_zpow_iff_log_lt (b := 2) (by norm_num) hpos (x := E)).mp (by simpa using h)

/-- Evaluation of the rounding at a value whose exponent and rounded significand are known. -/
theorem roundDouble_eval (x : ℚ) (e k : Int) (h1 : (2 : ℚ) ^ e ≤ |x|)
    (h2 : |x| < (2 : ℚ) ^ (e + 1)) (hk : |x / (2 : ℚ) ^ (e - 52) - k| < 1 / 2) :
    roundDouble x = (k : ℚ) * (2 : ℚ) ^ (e - 52) := by
  have hpos : 0 < |x| := lt_of_lt_of_le (two_zpow_pos e) h1
  have hx : x ≠ 0 := abs_pos.mp hpos
  rw [roundDouble, if_neg hx, log_eq_of_bracket x e h1 h2, roundHalfEven_eq_of_near _ k hk]

/-- The rounding error of a value below `2 ^ E` in magnitude is at most `2 ^ (E - 54)`. -/
theorem roundDouble_sub_le (x : ℚ) (E : Int) (h : |x| < (2 : ℚ) ^ E) :
    |roundDouble x - x| ≤ (2 : ℚ) ^ (E - 54) := by
  by_cases hx : x = 0
  · rw [roundDouble, if_pos hx, hx]
    simpa using (two_zpow_pos (E - 54)).le
  · have hlog := log_lt_of_abs_lt x hx E h
    have hu := two_zpow_pos (Int.log 2 |x| - 52)
    have hr := roundHalfEven_sub_le (x / (2 : ℚ) ^ (Int.log 2 |x| - 52))
    have hle : (2 : ℚ) ^ (Int.log 2 |x| - 52) ≤ (2 : ℚ) ^ (E - 53) :=
      zpow_le_zpow_right₀ (by norm_num) (by omega)
    have hhalf : (2 : ℚ) ^ (E - 53) = 2 * (2 : ℚ) ^ (E - 54) := by
      rw [show E - 53 = 1 + (E - 54) by ring, zpow_add₀ (by norm_num), zpow_one]
    have e1 : roundDouble x - x
        = ((roundHalfEven (x / (2 : ℚ) ^ (Int.log 2 |x| - 52)) : ℚ)
            - x / (2 : ℚ) ^ (Int.log 2 |x| - 52)) * (2 : ℚ) ^ (Int.log 2 |x| - 52) := by
      rw [roundDouble, if_neg hx]
      field_simp
    rw [e1, abs_mul, abs_of_pos hu]
    calc |(roundHalfEven (x / (2 : ℚ) ^ (Int.log 2 |x| - 52)) : ℚ)
            - x / (2 : ℚ) ^ (Int.log 2 |x| - 52)| * (2 : ℚ) ^ (Int.log 2 |x| - 52)
        ≤ 1 / 2 * (2 : ℚ) ^ (Int.log 2 |x| - 52) := mul_le_mul_of_nonneg_right hr hu.le
      _ ≤ 1 / 2 * (2 : ℚ) ^ (E - 53) := mul_le_mul_of_nonneg_left hle (by norm_num)
      _ = (2 : ℚ) ^ (E - 54) := by rw [hhalf]; ring

/-- Below `2 ^ 53` in magnitude the grid of `double` values contains every integer, so rounding
does not cross an integer. -/
theorem roundDouble_le_int (x : ℚ) (n : Int) (hx : |x| < (2 : ℚ) ^ (53 : Int))
    (h : x ≤ n) : roundDouble x ≤ n := by
  by_cases h0 : x = 0
  · rw [roundDouble, if_pos h0]; rw [h0] at h; exact h
  · have hlog := log_lt_of_abs_lt x h0 53 hx
    obtain ⟨j, hj⟩ : ∃ j : ℕ, Int.log 2 |x| - 52 = -(j : Int) :=
      ⟨(52 - Int.log 2 |x|).toNat, by omega⟩
    have hpow : (0 : ℚ) < (2 : ℚ) ^ j := pow_pos (by norm_num) j
    rw [roundDouble, if_neg h0, hj, zpow_neg, zpow_natCast, div_inv_eq_mul]
    have hk : x * (2 : ℚ) ^ j ≤ ((n * 2 ^ j : Int) : ℚ) := by
      push_cast
      exact mul_le_mul_of_nonneg_right h hpow.le
    have hr := roundHalfEven_le_of_le _ _ hk
    have hr' : (roundHalfEven (x * (2 : ℚ) ^ j) : ℚ) ≤ (n : ℚ) * (2 : ℚ) ^ j := by
      exact_mod_cast hr
    rw [← div_eq_mul_inv, div_le_iff₀ hpow]
    exact hr'

theorem roundDouble_ge_int (x : ℚ) (n : Int) (hx : |x| < (2 : ℚ) ^ (53 : Int))
    (h : (n : ℚ) ≤ x) : (n : ℚ) ≤ roundDouble x := by
  by_cases h0 : x = 0
  · rw [roundDouble, if_pos h0]; rw [h0] at h; exact h
  · have hlog := log_lt_of_abs_lt x h0 53 hx
    obtain ⟨j, hj⟩ : ∃ j : ℕ, Int.log 2 |x| - 52 = -(j : Int) :=
      ⟨(52 - Int.log 2 |x|).toNat, by omega⟩
    have hpow : (0 : ℚ) < (2 : ℚ) ^ j := pow_pos (by norm_num) j
    rw [roundDouble, if_neg h0, hj, zpow_neg, zpow_natCast, div_inv_eq_mul]
    have hk : ((n * 2 ^ j : Int) : ℚ) ≤ x * (2 : ℚ) ^ j := by
      push_cast
      exact mul_le_mul_of_nonneg_right h hpow.le
    have hr := roundHalfEven_ge_of_ge _ _ hk
    have hr' : (n : ℚ) * (2 : ℚ) ^ j ≤ (roundHalfEven (x * (2 : ℚ) ^ j) : ℚ) := by
      exact_mod_cast hr
    rw [← div_eq_mul_inv, le_div_iff₀ hpow]
    exact hr'

/-- An integer below `2 ^ 53` in magnitude is a `double`. -/
theorem roundDouble_intCast (n : Int) (h : |(n : ℚ)| < (2 : ℚ) ^ (53 : Int)) :
    roundDouble (n : ℚ) = n :=
  le_antisymm (roundDouble_le_int _ n h le_rfl) (roundDouble_ge_int _ n h le_rfl)

end Cxx

/-! ## The blender of `ImageChange.cpp` -/

namespace ImageChange

open Cxx

theorem blendRow_getElem? (nCols : Nat) (m : ℚ) (pix : List Nat) (conv : List Int)
    (row : List Nat) (j : Nat) :
    (blendRow nCols m pix conv row)[j]? =
      if j < nCols then
        row[j]?.map (fun _ => blendChannel (pix.getD j 0) m (conv.getD j 0))
      else row[j]? := by
  rw [blendRow, forLoop_one_eq_foldl]
  exact foldl_modify_getElem? (fun j _ => blendChannel (pix.getD j 0) m (conv.getD j 0)) 0
    nCols row j

/-- A row that was blended before is blended as if it had not been: every position the loop
visits is overwritten. -/
theorem blendRow_blendRow (nCols : Nat) (m1 m2 : ℚ) (pix : List Nat) (conv : List Int)
    (row : List Nat) :
    blendRow nCols m2 pix conv (blendRow nCols m1 pix conv row) = blendRow nCols m2 pix conv row := by
  apply List.ext_getElem?
  intro j
  rw [blendRow_getElem?, blendRow_getElem?, blendRow_getElem?]
  by_cases hj : j < nCols
  · simp only [if_pos hj, Option.map_map]
    rfl
  · simp only [if_neg hj]

/-- The rows of `imgChanged` after `onTrackbarChanged`. -/
theorem onTrackbarChanged_data_getElem? (g : Globals) (i : Nat) :
    (onTrackbarChanged g).imgChanged.data[i]? =
      if i < g.nRows then
        g.imgChanged.data[i]?.map
          (blendRow g.nCols (multiplierAt g.effectDegreeProcent)
            (g.imgOriginal.ptr i) (g.convertingMatrix.getD i []))
      else g.imgChanged.data[i]? := by
  simp only [onTrackbarChanged]
  rw [forLoop_one_eq_foldl]
  exact foldl_modify_getElem?
    (fun i row => blendRow g.nCols (multiplierAt g.effectDegreeProcent)
      (g.imgOriginal.ptr i) (g.convertingMatrix.getD i []) row) [] g.nRows g.imgChanged.data i

/-- Two slider moves in a row leave the state of a single move to the second position. -/
theorem sliderMoved_sliderMoved (g : Globals) (p q : Int) :
    sliderMoved (sliderMoved g p) q = sliderMoved g q := by
  have hdata : (sliderMoved (sliderMoved g p) q).imgChanged.data
      = (sliderMoved g q).imgChanged.data := by
    apply List.ext_getElem?
    intro i
    simp only [sliderMoved]
    rw [onTrackbarChanged_data_getElem?, onTrackbarChanged_data_getElem?]
    have hfields : (onTrackbarChanged { g with effectDegreeProcent := p }).nRows = g.nRows ∧
        (onTrackbarChanged { g with effectDegreeProcent := p }).nCols = g.nCols ∧
        (onTrackbarChanged { g with effectDegreeProcent := p }).imgOriginal = g.imgOriginal ∧
        (onTrackbarChanged { g with effectDegreeProcent := p }).convertingMatrix
          = g.convertingMatrix := by
      simp [onTrackbarChanged]
    obtain ⟨h1, h2, h3, h4⟩ := hfields
    simp only [h1, h2, h3, h4]
    rw [onTrackbarChanged_data_getElem?]
    by_cases hi : i < g.nRows
    · simp only [if_pos hi, Option.map_map]
      congr 1
      funext row
      exact blendRow_blendRow _ _ _ _ _ _
    · simp only [if_neg hi]
  have hrest : ∀ a b : Globals, a.effectDegreeProcent = b.effectDegreeProcent →
      a.effectDegreeMultiplier = b.effectDegreeMultiplier → a.nChannels = b.nChannels →
      a.nRows = b.nRows → a.nCols = b.nCols → a.imgOriginal = b.imgOriginal →
      a.imgLoaded = b.imgLoaded → a.convertingMatrix = b.convertingMatrix →
      a.imgChanged.rows = b.imgChanged.rows → a.imgChanged.cols = b.imgChanged.cols →
      a.imgChanged.channels = b.imgChanged.channels → a.imgChanged.data = b.imgChanged.data →
      a = b := by
    intro a b h1 h2 h3 h4 h5 h6 h7 h8 h9 h10 h11 h12
    cases a with
    | mk a1 a2 a3 a4 a5 a6 a7 a8 a9 =>
      cases b with
      | mk b1 b2 b3 b4 b5 b6 b7 b8 b9 =>
        cases a7; cases b7
        simp_all
  apply hrest <;> first | exact hdata | simp [sliderMoved, onTrackbarChanged]

theorem runSlider_append (g : Globals) (events : List Int) (p : Int) :
    runSlider g (events ++ [p]) = sliderMoved (runSlider g events) p := by
  simp [runSlider, List.foldl_append]

theorem runSlider_last (g : Globals) (events : List Int) :
    ∀ p : Int, runSlider g (events ++ [p]) = sliderMoved g p := by
  induction events using List.reverseRecOn with
  | nil => intro p; simp [runSlider]
  | append_singleton es e ih =>
    intro p
    rw [runSlider_append, ih e, sliderMoved_sliderMoved]

theorem sliderMoved_imgOriginal (g : Globals) (p : Int) :
    (sliderMoved g p).imgOriginal = g.imgOriginal := by
  simp [sliderMoved, onTrackbarChanged]

theorem sliderMoved_convertingMatrix (g : Globals) (p : Int) :
    (sliderMoved g p).convertingMatrix = g.convertingMatrix := by
  simp [sliderMoved, onTrackbarChanged]

end ImageChange

/-! ## Loops that write one block of cells per iteration -/

namespace Cxx

/-- A loop whose iteration `q` writes the cells `q * n, ..., q * n + n - 1` and no other cell
leaves in every cell of every block the value written for it. -/
theorem foldl_block_getElem? {α : Type} (n : Nat) (step : Nat → List α → List α)
    (v : Nat → Nat → α)
    (hlen : ∀ q r, (step q r).length = r.length)
    (hin : ∀ q r c, c < n → q * n + c < r.length → (step q r)[q * n + c]? = some (v q c))
    (hout : ∀ q r idx, (idx < q * n ∨ q * n + n ≤ idx) → (step q r)[idx]? = r[idx]?)
    (cols : Nat) (r0 : List α) :
    ((List.range cols).foldl (fun r q => step q r) r0).length = r0.length ∧
    (∀ q c, q < cols → c < n → q * n + c < r0.length →
      ((List.range cols).foldl (fun r q => step q r) r0)[q * n + c]? = some (v q c)) ∧
    (∀ idx, cols * n ≤ idx →
      ((List.range cols).foldl (fun r q => step q r) r0)[idx]? = r0[idx]?) := by
  apply foldl_range_induction
    (fun k (r : List α) => r.length = r0.length ∧
      (∀ q c, q < k → c < n → q * n + c < r0.length → r[q * n + c]? = some (v q c)) ∧
      (∀ idx, k * n ≤ idx → r[idx]? = r0[idx]?))
    step
  · refine ⟨rfl, ?_, ?_⟩
    · intro q c hq; omega
    · intro idx _; rfl
  · intro k r _ hP
    obtain ⟨hl, hP, hQ⟩ := hP
    refine ⟨by rw [hlen, hl], ?_, ?_⟩
    · intro q c hq hc hidx
      by_cases hqk : q = k
      · subst hqk
        exact hin q r c hc (by omega)
      · have hlt : q < k := by omega
        have hmul : (q + 1) * n ≤ k * n := Nat.mul_le_mul_right n hlt
        rw [Nat.succ_mul] at hmul
        rw [hout k r (q * n + c) (Or.inl (by omega))]
        exact hP q c hlt hc hidx
    · intro idx hidx
      rw [Nat.succ_mul] at hidx
      rw [hout k r idx (Or.inr (by omega))]
      exact hQ idx (by omega)

/-- An `int` that fits into a `short` is not changed by the conversion. -/
theorem toShort_of_fits (x : Int) (h1 : -32768 ≤ x) (h2 : x ≤ 32767) : toShort x = x := by
  unfold toShort
  omega

end Cxx

/-! ## The delta matrix of `ImageChange.cpp` -/

namespace ImageChange

open Cxx

theorem deltaRow3 (pix : List Nat) (cols : Nat) (r0 : List Int) :
    (forLoop (cols * 3) 3 (deltaStep3 pix) r0).length = r0.length ∧
    ∀ q c, q < cols → c < 3 → q * 3 + c < r0.length →
      (forLoop (cols * 3) 3 (deltaStep3 pix) r0)[q * 3 + c]? = some (delta3 pix q c) := by
  rw [forLoop_step_eq_foldl cols 3 (by decide)]
  have h := foldl_block_getElem? 3 (fun q r => deltaStep3 pix (q * 3) r) (delta3 pix)
    (by intro q r; simp [deltaStep3])
    (by
      intro q r c hc hidx
      have hc3 : c = 0 ∨ c = 1 ∨ c = 2 := by omega
      rcases hc3 with rfl | rfl | rfl
      · simp only [deltaStep3, delta3, List.getElem?_set, List.length_set]
        simp
        omega
      · simp only [deltaStep3, delta3, List.getElem?_set, List.length_set]
        simp
        omega
      · simp only [deltaStep3, delta3, List.getElem?_set, List.length_set]
        simp
        omega)
    (by
      intro q r idx hidx
      simp only [deltaStep3, List.getElem?_set, List.length_set]
      rw [if_neg (by omega), if_neg (by omega), if_neg (by omega)])
    cols r0
  exact ⟨h.1, h.2.1⟩

theorem deltaRow4 (pix : List Nat) (cols : Nat) (r0 : List Int) :
    (forLoop (cols * 4) 4 (deltaStep4 pix) r0).length = r0.length ∧
    ∀ q c, q < cols → c < 4 → q * 4 + c < r0.length →
      (forLoop (cols * 4) 4 (deltaStep4 pix) r0)[q * 4 + c]? = some (delta4 pix q c) := by
  rw [forLoop_step_eq_foldl cols 4 (by decide)]
  have h := foldl_block_getElem? 4 (fun q r => deltaStep4 pix (q * 4) r) (delta4 pix)
    (by intro q r; simp [deltaStep4, deltaStep3])
    (by
      intro q r c hc hidx
      have hc4 : c = 0 ∨ c = 1 ∨ c = 2 ∨ c = 3 := by omega
      rcases hc4 with rfl | rfl | rfl | rfl
      · simp only [deltaStep4, deltaStep3, delta4, List.getElem?_set, List.length_set]
        simp
        omega
      · simp only [deltaStep4, deltaStep3, delta4, List.getElem?_set, List.length_set]
        simp
        omega
      · simp only [deltaStep4, deltaStep3, delta4, List.getElem?_set, List.length_set]
        simp
        omega
      · simp only [deltaStep4, deltaStep3, delta4, List.getElem?_set, List.length_set]
        simp
        omega)
    (by
      intro q r idx hidx
      simp only [deltaStep4, deltaStep3, List.getElem?_set, List.length_set]
      rw [if_neg (by omega), if_neg (by omega), if_neg (by omega), if_neg (by omega)])
    cols r0
  exact ⟨h.1, h.2.1⟩

end ImageChange

namespace ImageChange

open Cxx

theorem allocMatrix_getElem? (nRows nCols : Nat) (uninit : Nat → Nat → Int) (i : Nat)
    (hi : i < nRows) :
    (allocMatrix nRows nCols uninit)[i]? = some ((List.range nCols).map (fun j => uninit i j)) := by
  simp [allocMatrix, List.getElem?_map, List.getElem?_range hi]

theorem createConvertingMatrix_fields (uninit : Nat → Nat → Int) (g : Globals) :
    (createConvertingMatrix uninit g).imgChanged = g.imgOriginal ∧
    (createConvertingMatrix uninit g).imgOriginal = g.imgOriginal ∧
    (createConvertingMatrix uninit g).nRows = g.nRows ∧
    (createConvertingMatrix uninit g).nCols = g.nCols ∧
    (createConvertingMatrix uninit g).nChannels = g.nChannels := by
  unfold createConvertingMatrix
  simp only
  split <;> simp

/-- The entries of the matrix that `createConvertingMatrix` builds for 3 channels. -/
theorem createConvertingMatrix_deltaAt3 (uninit : Nat → Nat → Int) (g : Globals) (cols : Nat)
    (h3 : g.nChannels = 3) (hcols : g.nCols = cols * 3) (i q c : Nat) (hi : i < g.nRows)
    (hq : q < cols) (hc : c < 3) :
    (createConvertingMatrix uninit g).deltaAt i (q * 3 + c)
      = some (delta3 (g.imgOriginal.ptr i) q c) := by
  have hcm : (createConvertingMatrix uninit g).convertingMatrix =
      forLoop g.nRows 1
        (fun i cm => cm.set i
          (forLoop g.nCols 3 (deltaStep3 (g.imgOriginal.ptr i)) (cm.getD i [])))
        (allocMatrix g.nRows g.nCols uninit) := by
    unfold createConvertingMatrix
    simp only [h3]
  have hrow := foldl_modify_getElem?
    (fun i row => forLoop g.nCols 3 (deltaStep3 (g.imgOriginal.ptr i)) row) []
    g.nRows (allocMatrix g.nRows g.nCols uninit) i
  rw [if_pos hi, allocMatrix_getElem? _ _ _ _ hi] at hrow
  rw [Globals.deltaAt, hcm, forLoop_one_eq_foldl, List.getD_eq_getElem?_getD, hrow]
  simp only [Option.map_some', Option.getD_some, hcols]
  exact (deltaRow3 (g.imgOriginal.ptr i) cols _).2 q c hq hc (by simp; omega)

/-- The entries of the matrix that `createConvertingMatrix` builds for 4 channels. -/
theorem createConvertingMatrix_deltaAt4 (uninit : Nat → Nat → Int) (g : Globals) (cols : Nat)
    (h4 : g.nChannels = 4) (hcols : g.nCols = cols * 4) (i q c : Nat) (hi : i < g.nRows)
    (hq : q < cols) (hc : c < 4) :
    (createConvertingMatrix uninit g).deltaAt i (q * 4 + c)
      = some (delta4 (g.imgOriginal.ptr i) q c) := by
  have hcm : (createConvertingMatrix uninit g).convertingMatrix =
      forLoop g.nRows 1
        (fun i cm => cm.set i
          (forLoop g.nCols 4 (deltaStep4 (g.imgOriginal.ptr i)) (cm.getD i [])))
        (allocMatrix g.nRows g.nCols uninit) := by
    unfold createConvertingMatrix
    simp only [h4]
  have hrow := foldl_modify_getElem?
    (fun i row => forLoop g.nCols 4 (deltaStep4 (g.imgOriginal.ptr i)) row) []
    g.nRows (allocMatrix g.nRows g.nCols uninit) i
  rw [if_pos hi, allocMatrix_getElem? _ _ _ _ hi] at hrow
  rw [Globals.deltaAt, hcm, forLoop_one_eq_foldl, List.getD_eq_getElem?_getD, hrow]
  simp only [Option.map_some', Option.getD_some, hcols]
  exact (deltaRow4 (g.imgOriginal.ptr i) cols _).2 q c hq hc (by simp; omega)

/-- With another channel count the `switch` does nothing: the matrix is left as allocated. -/
theorem createConvertingMatrix_other (uninit : Nat → Nat → Int) (g : Globals)
    (h3 : g.nChannels ≠ 3) (h4 : g.nChannels ≠ 4) :
    createConvertingMatrix uninit g =
      { g with convertingMatrix := allocMatrix g.nRows g.nCols uninit
               imgChanged := g.imgOriginal } := by
  unfold createConvertingMatrix
  simp only

theorem mainBuild_eq (uninit : Nat → Nat → Int) (img : Mat) (h : img.channels ≠ 1) :
    mainBuild uninit img = createConvertingMatrix uninit (loadedGlobals img) := by
  simp [mainBuild, createRgbImage, h, loadedGlobals]

end ImageChange

/-! ## The arithmetic of `onTrackbarChanged` -/

namespace Cxx

/-- Truncation toward zero of a quotient of integers is the truncating integer division. -/
theorem truncToInt_div (a : Int) (b : Nat) (hb : 0 < b) :
    truncToInt ((a : ℚ) / (b : ℚ)) = Int.tdiv a b := by
  have hbq : (0 : ℚ) < (b : ℚ) := by exact_mod_cast hb
  unfold truncToInt
  by_cases ha : 0 ≤ a
  · have h0 : (0 : ℚ) ≤ (a : ℚ) / (b : ℚ) := div_nonneg (by exact_mod_cast ha) hbq.le
    rw [if_pos h0, Rat.floor_intCast_div_natCast, Int.tdiv_eq_ediv ha (by omega)]
  · have hneg : a < 0 := by omega
    have h0 : ¬ (0 : ℚ) ≤ (a : ℚ) / (b : ℚ) := by
      rw [not_le]
      exact div_neg_of_neg_of_pos (by exact_mod_cast hneg) hbq
    have hflip : (a : ℚ) / (b : ℚ) = -(((-a : Int) : ℚ) / (b : ℚ)) := by
      push_cast
      ring
    rw [if_neg h0, hflip, Int.ceil_neg, Rat.floor_intCast_div_natCast]
    have h1 : a.tdiv b = -((-a).tdiv b) := by rw [Int.neg_tdiv, neg_neg]
    rw [h1, Int.tdiv_eq_ediv (by omega) (by omega)]

theorem truncToInt_intCast (z : Int) : truncToInt (z : ℚ) = z := by
  unfold truncToInt
  split <;> simp

/-- Truncation of a value `X` that lies within one hundredth of `k / 100`, for `k` not
negative. -/
theorem truncToInt_near_nonneg (X : ℚ) (k : Int) (hk : 0 ≤ k)
    (h : |X - (k : ℚ) / 100| < 1 / 100) :
    (¬ (100 ∣ k) → truncToInt X = k / 100) ∧
    (100 ∣ k → truncToInt X = k / 100 ∨ (0 < k / 100 ∧ truncToInt X = k / 100 - 1)) := by
  rw [abs_lt] at h
  obtain ⟨hl, hu⟩ := h
  have hdiv : (k : ℚ) = 100 * ((k / 100 : Int) : ℚ) + ((k % 100 : Int) : ℚ) := by
    have := Int.ediv_add_emod k 100
    exact_mod_cast this.symm
  have hr0 : 0 ≤ k % 100 := Int.emod_nonneg k (by decide)
  have hr1 : k % 100 < 100 := Int.emod_lt_of_pos k (by decide)
  have hn : 0 ≤ k / 100 := Int.ediv_nonneg hk (by decide)
  have hnq : (0 : ℚ) ≤ ((k / 100 : Int) : ℚ) := by exact_mod_cast hn
  have hr0q : (0 : ℚ) ≤ ((k % 100 : Int) : ℚ) := by exact_mod_cast hr0
  constructor
  · intro hnd
    have hr : 1 ≤ k % 100 := by omega
    have hrq : (1 : ℚ) ≤ ((k % 100 : Int) : ℚ) := by exact_mod_cast hr
    have hr2 : k % 100 ≤ 99 := by omega
    have hr2q : ((k % 100 : Int) : ℚ) ≤ 99 := by exact_mod_cast hr2
    have hX0 : 0 ≤ X := by linarith
    rw [truncToInt, if_pos hX0, Int.floor_eq_iff]
    constructor <;> linarith
  · intro hd
    have hr : k % 100 = 0 := by omega
    have hrq : ((k % 100 : Int) : ℚ) = 0 := by exact_mod_cast hr
    by_cases hz : k / 100 = 0
    · left
      have hzq : ((k / 100 : Int) : ℚ) = 0 := by exact_mod_cast hz
      rw [hz, truncToInt]
      split
      · rw [Int.floor_eq_iff]; constructor <;> push_cast <;> linarith
      · rw [Int.ceil_eq_iff]; constructor <;> push_cast <;> linarith
    · have hpos : 1 ≤ k / 100 := by omega
      have hposq : (1 : ℚ) ≤ ((k / 100 : Int) : ℚ) := by exact_mod_cast hpos
      have hX0 : 0 ≤ X := by linarith
      rw [truncToInt, if_pos hX0]
      by_cases hge : ((k / 100 : Int) : ℚ) ≤ X
      · left
        rw [Int.floor_eq_iff]
        constructor <;> linarith
      · right
        refine ⟨by omega, ?_⟩
        rw [Int.floor_eq_iff]
        push_cast
        constructor <;> linarith

theorem truncToInt_neg (X : ℚ) : truncToInt (-X) = -truncToInt X := by
  unfold truncToInt
  by_cases h : X = 0
  · simp [h]
  · by_cases hp : 0 < X
    · have h1 : ¬ (0 : ℚ) ≤ -X := by linarith
      rw [if_neg h1, if_pos hp.le, Int.ceil_neg]
    · have hn : X < 0 := lt_of_le_of_ne (not_lt.mp hp) h
      have h1 : (0 : ℚ) ≤ -X := by linarith
      have h2 : ¬ (0 : ℚ) ≤ X := by linarith
      rw [if_pos h1, if_neg h2, Int.floor_neg]

/-- Truncation of a value `X` that lies within one hundredth of `k / 100`: it is the truncated
quotient when 100 does not divide `k`; when 100 divides `k` it is the quotient or its neighbour
toward zero. -/
theorem truncToInt_near (X : ℚ) (k : Int) (h : |X - (k : ℚ) / 100| < 1 / 100) :
    (¬ (100 ∣ k) → truncToInt X = Int.tdiv k 100) ∧
    (100 ∣ k → truncToInt X = Int.tdiv k 100 ∨
      (0 < Int.tdiv k 100 ∧ truncToInt X = Int.tdiv k 100 - 1) ∨
      (Int.tdiv k 100 < 0 ∧ truncToInt X = Int.tdiv k 100 + 1)) := by
  by_cases hk : 0 ≤ k
  · obtain ⟨a, b⟩ := truncToInt_near_nonneg X k hk h
    rw [Int.tdiv_eq_ediv hk (by decide)]
    refine ⟨a, fun hd => ?_⟩
    rcases b hd with b1 | b2
    · exact Or.inl b1
    · exact Or.inr (Or.inl b2)
  · have hk' : 0 ≤ -k := by omega
    have h' : |(-X) - ((-k : Int) : ℚ) / 100| < 1 / 100 := by
      have e : (-X) - ((-k : Int) : ℚ) / 100 = -(X - (k : ℚ) / 100) := by push_cast; ring
      rw [e, abs_neg]
      exact h
    obtain ⟨a, b⟩ := truncToInt_near_nonneg (-X) (-k) hk' h'
    have ht : Int.tdiv k 100 = -((-k) / 100) := by
      have h1 : k.tdiv 100 = -((-k).tdiv 100) := by rw [Int.neg_tdiv, neg_neg]
      rw [h1, Int.tdiv_eq_ediv hk' (by decide)]
    rw [truncToInt_neg] at a b
    rw [ht]
    constructor
    · intro hnd
      have := a (by omega)
      omega
    · intro hd
      rcases b (by omega) with b1 | b2
      · left; omega
      · right; right
        obtain ⟨b3, b4⟩ := b2
        exact ⟨by omega, by omega⟩

end Cxx

namespace ImageChange

open Cxx

theorem truncatedProductBlend_eq_tdiv (v : Nat) (p d : Int) :
    truncatedProductBlend v p d = toUchar ((v : Int) + Int.tdiv (p * d) 100) := by
  have h : (p : ℚ) / 100 * (d : ℚ) = ((p * d : Int) : ℚ) / ((100 : Nat) : ℚ) := by
    push_cast
    ring
  rw [truncatedProductBlend, h, truncToInt_div _ 100 (by decide)]
  rfl

theorem multiplierAt_zero : multiplierAt 0 = 0 := by
  simp [multiplierAt, ddiv, roundDouble]

theorem multiplierAt_full : multiplierAt 100 = 1 := by
  have h : ((100 : Int) : ℚ) / (EFFECT_SLIDER_MAX : ℚ) = ((1 : Int) : ℚ) := by
    simp [EFFECT_SLIDER_MAX]
  rw [multiplierAt, ddiv, h, roundDouble_intCast 1 (by norm_num)]
  norm_num

/-- The quotient `p / 100` for a slider position in 0..100. -/
theorem quotient_bounds (p : Int) (hp0 : 0 ≤ p) (hp1 : p ≤ 100) :
    0 ≤ (p : ℚ) / (EFFECT_SLIDER_MAX : ℚ) ∧ (p : ℚ) / (EFFECT_SLIDER_MAX : ℚ) ≤ 1 := by
  have h0 : (0 : ℚ) ≤ (p : ℚ) := by exact_mod_cast hp0
  have h1 : (p : ℚ) ≤ 100 := by exact_mod_cast hp1
  have e : (EFFECT_SLIDER_MAX : ℚ) = 100 := by simp [EFFECT_SLIDER_MAX]
  rw [e]
  constructor
  · positivity
  · rw [div_le_one (by norm_num)]
    exact h1

/-- The multiplier for a slider position in 0..100 is a `double` between 0 and 1. -/
theorem multiplier_bounds (p : Int) (hp0 : 0 ≤ p) (hp1 : p ≤ 100) :
    0 ≤ multiplierAt p ∧ multiplierAt p ≤ 1 := by
  obtain ⟨q0, q1⟩ := quotient_bounds p hp0 hp1
  have habs : |(p : ℚ) / (EFFECT_SLIDER_MAX : ℚ)| < (2 : ℚ) ^ (53 : Int) := by
    rw [abs_of_nonneg q0]
    exact lt_of_le_of_lt q1 (by norm_num)
  constructor
  · have := roundDouble_ge_int _ 0 habs (by simpa using q0)
    simpa [multiplierAt, ddiv] using this
  · have := roundDouble_le_int _ 1 habs (by simpa using q1)
    simpa [multiplierAt, ddiv] using this

theorem blendChannel_zero (v : Nat) (d : Int) (hv : v < 256) :
    blendChannel v (multiplierAt 0) d = v := by
  have hvq : |((v : Int) : ℚ)| < (2 : ℚ) ^ (53 : Int) := by
    have h1 : ((v : Int) : ℚ) < 256 := by exact_mod_cast hv
    have h0 : (0 : ℚ) ≤ ((v : Int) : ℚ) := by exact_mod_cast Int.natCast_nonneg v
    rw [abs_of_nonneg h0]
    exact lt_trans h1 (by norm_num)
  have hsum : (v : ℚ) + dmul 0 (d : ℚ) = ((v : Int) : ℚ) := by
    simp [dmul, roundDouble]
  rw [blendChannel, blendValue, multiplierAt_zero, dadd, hsum, roundDouble_intCast _ hvq,
    truncToInt_intCast, toUchar]
  omega

theorem blendChannel_full (v : Nat) (d : Int) (hv : v < 256) (hd0 : -255 ≤ d)
    (hd1 : d ≤ 255) : blendChannel v (multiplierAt 100) d = toUchar ((v : Int) + d) := by
  have bound : ∀ z : Int, -1000 ≤ z → z ≤ 1000 → |(z : ℚ)| < (2 : ℚ) ^ (53 : Int) := by
    intro z h0 h1
    have a : (-1000 : ℚ) ≤ (z : ℚ) := by exact_mod_cast h0
    have b : (z : ℚ) ≤ 1000 := by exact_mod_cast h1
    rw [abs_lt]
    constructor
    · exact lt_of_lt_of_le (by norm_num) a
    · exact lt_of_le_of_lt b (by norm_num)
  have hprod : dmul 1 (d : ℚ) = (d : ℚ) := by
    rw [dmul, one_mul, roundDouble_intCast d (bound d (by omega) (by omega))]
  have hsum : (v : ℚ) + (d : ℚ) = (((v : Int) + d : Int) : ℚ) := by push_cast; ring
  rw [blendChannel, blendValue, multiplierAt_full, hprod, dadd, hsum,
    roundDouble_intCast _ (bound _ (by omega) (by omega)), truncToInt_intCast]

/-- The `double` computed for a channel differs from the exact value `v + p * d / 100` by less
than one hundredth (in fact by less than `2 ^ (-36)`). -/
theorem blendValue_near (v : Nat) (p d : Int) (hv : v ≤ 255) (hd0 : -255 ≤ d) (hd1 : d ≤ 255)
    (hp0 : 0 ≤ p) (hp1 : p ≤ 100) :
    |blendValue v (multiplierAt p) d - ((100 * (v : Int) + p * d : Int) : ℚ) / 100| < 1 / 100 := by
  have hδ : (2 : ℚ) ^ ((10 : Int) - 54) = 1 / 17592186044416 := by norm_num
  have h1024 : (2 : ℚ) ^ (10 : Int) = 1024 := by norm_num
  obtain ⟨q0, q1⟩ := quotient_bounds p hp0 hp1
  have e100 : (EFFECT_SLIDER_MAX : ℚ) = 100 := by simp [EFFECT_SLIDER_MAX]
  rw [e100] at q0 q1
  have hvq0 : (0 : ℚ) ≤ (v : ℚ) := Nat.cast_nonneg v
  have hvq1 : (v : ℚ) ≤ 255 := by exact_mod_cast hv
  have hdq0 : (-255 : ℚ) ≤ (d : ℚ) := by exact_mod_cast hd0
  have hdq1 : (d : ℚ) ≤ 255 := by exact_mod_cast hd1
  have hdabs : |(d : ℚ)| ≤ 255 := abs_le.mpr ⟨hdq0, hdq1⟩
  -- the multiplier
  have hm : |multiplierAt p - (p : ℚ) / 100| ≤ 1 / 17592186044416 := by
    have := roundDouble_sub_le ((p : ℚ) / 100) 10
      (by rw [h1024, abs_of_nonneg q0]; linarith)
    rw [hδ] at this
    simpa [multiplierAt, ddiv, e100] using this
  -- the product
  have hprod : |multiplierAt p * (d : ℚ) - (p : ℚ) / 100 * (d : ℚ)| ≤ 255 / 17592186044416 := by
    rw [← sub_mul, abs_mul]
    calc |multiplierAt p - (p : ℚ) / 100| * |(d : ℚ)|
        ≤ 1 / 17592186044416 * 255 :=
          mul_le_mul hm hdabs (abs_nonneg _) (by norm_num)
      _ = 255 / 17592186044416 := by norm_num
  have hexact : |(p : ℚ) / 100 * (d : ℚ)| ≤ 255 := by
    rw [abs_mul, abs_of_nonneg q0]
    calc (p : ℚ) / 100 * |(d : ℚ)| ≤ 1 * 255 := mul_le_mul q1 hdabs (abs_nonneg _) (by norm_num)
      _ = 255 := by norm_num
  rw [abs_le] at hprod hexact
  have hq : |dmul (multiplierAt p) (d : ℚ) - multiplierAt p * (d : ℚ)| ≤ 1 / 17592186044416 := by
    have := roundDouble_sub_le (multiplierAt p * (d : ℚ)) 10
      (by rw [h1024, abs_lt]; constructor <;> linarith)
    rw [hδ] at this
    exact this
  rw [abs_le] at hq
  have hs : |dadd (v : ℚ) (dmul (multiplierAt p) (d : ℚ))
      - ((v : ℚ) + dmul (multiplierAt p) (d : ℚ))| ≤ 1 / 17592186044416 := by
    have := roundDouble_sub_le ((v : ℚ) + dmul (multiplierAt p) (d : ℚ)) 10
      (by rw [h1024, abs_lt]; constructor <;> linarith)
    rw [hδ] at this
    exact this
  rw [abs_le] at hs
  have htarget : ((100 * (v : Int) + p * d : Int) : ℚ) / 100
      = (v : ℚ) + (p : ℚ) / 100 * (d : ℚ) := by
    push_cast
    ring
  rw [blendValue, htarget, abs_lt]
  constructor <;> linarith

/-- The stored value when 100 does not divide `p * d`: the exact sum, truncated. -/
theorem blendChannel_of_not_dvd (v : Nat) (p d : Int) (hv : v ≤ 255) (hd0 : -255 ≤ d)
    (hd1 : d ≤ 255) (hp0 : 0 ≤ p) (hp1 : p ≤ 100) (hnd : ¬ (100 ∣ p * d)) :
    blendChannel v (multiplierAt p) d = toUchar (Int.tdiv (100 * (v : Int) + p * d) 100) := by
  have h := (truncToInt_near _ _ (blendValue_near v p d hv hd0 hd1 hp0 hp1)).1 (by omega)
  rw [blendChannel, h]

end ImageChange

namespace ImageChange

open Cxx

theorem Mat.WellFormed.row {img : Mat} (h : img.WellFormed) {i : Nat} (hi : i < img.rows) :
    img.data[i]? = some (img.ptr i) ∧ (img.ptr i).length = img.cols * img.channels ∧
      ∀ j, (img.ptr i).getD j 0 < 256 := by
  obtain ⟨hlen, hrows⟩ := h
  have hi2 : i < img.data.length := by omega
  have hsome : img.data[i]? = some img.data[i] := List.getElem?_eq_getElem hi2
  have hptr : img.ptr i = img.data[i] := by
    simp [Mat.ptr, List.getD_eq_getElem?_getD, hsome]
  have hmem : img.data[i] ∈ img.data := List.getElem_mem hi2
  obtain ⟨hl, hb⟩ := hrows _ hmem
  refine ⟨by rw [hptr]; exact hsome, by rw [hptr]; exact hl, ?_⟩
  intro j
  rw [hptr, List.getD_eq_getElem?_getD]
  by_cases hj : j < img.data[i].length
  · rw [List.getElem?_eq_getElem hj]
    exact hb _ (List.getElem_mem hj)
  · rw [List.getElem?_eq_none (by omega)]
    simp

/-- The byte that a slider move stores at row `i`, position `j`. -/
theorem sliderMoved_byteAt (g : Globals) (p : Int) (i j : Nat) (hi : i < g.nRows)
    (hj : j < g.nCols) (hrow : g.imgChanged.data[i]? = some (g.imgChanged.ptr i))
    (hlen : j < (g.imgChanged.ptr i).length) :
    (sliderMoved g p).imgChanged.byteAt i j =
      some (blendChannel ((g.imgOriginal.ptr i).getD j 0)
        (multiplierAt p) ((g.convertingMatrix.getD i []).getD j 0)) := by
  have h := onTrackbarChanged_data_getElem? { g with effectDegreeProcent := p } i
  simp only [if_pos hi, hrow, Option.map_some'] at h
  rw [Mat.byteAt, Mat.ptr, List.getD_eq_getElem?_getD, sliderMoved, h]
  simp only [Option.getD_some]
  rw [blendRow_getElem?, if_pos hj, List.getElem?_eq_getElem hlen]
  rfl

end ImageChange

namespace ImageChange

open Cxx

/-- The stored value when 100 divides `p * d`: the exact sum is an integer, and the stored value
is that integer or its neighbour toward zero. -/
theorem blendChannel_of_dvd (v : Nat) (p d : Int) (hv : v ≤ 255) (hd0 : -255 ≤ d)
    (hd1 : d ≤ 255) (hp0 : 0 ≤ p) (hp1 : p ≤ 100) (hdvd : 100 ∣ p * d) :
    blendChannel v (multiplierAt p) d = toUchar (Int.tdiv (100 * (v : Int) + p * d) 100) ∨
    (0 < Int.tdiv (100 * (v : Int) + p * d) 100 ∧
      blendChannel v (multiplierAt p) d
        = toUchar (Int.tdiv (100 * (v : Int) + p * d) 100 - 1)) ∨
    (Int.tdiv (100 * (v : Int) + p * d) 100 < 0 ∧
      blendChannel v (multiplierAt p) d
        = toUchar (Int.tdiv (100 * (v : Int) + p * d) 100 + 1)) := by
  have h := (truncToInt_near _ _ (blendValue_near v p d hv hd0 hd1 hp0 hp1)).2 (by omega)
  rw [blendChannel]
  rcases h with h | ⟨h0, h⟩ | ⟨h0, h⟩
  · left; rw [h]
  · right; left; exact ⟨h0, by rw [h]⟩
  · right; right; exact ⟨h0, by rw [h]⟩

/-- The multiplier at slider position 29: the `double` nearest to 0.29, which lies below it. -/
theorem multiplierAt_29 : multiplierAt 29 = 5224175567749775 / 18014398509481984 := by
  have h : ((29 : Int) : ℚ) / (EFFECT_SLIDER_MAX : ℚ) = 29 / 100 := by
    simp [EFFECT_SLIDER_MAX]
  rw [multiplierAt, ddiv, h, roundDouble_eval (29 / 100) (-2) 5224175567749775
    (by norm_num [abs_of_pos]) (by norm_num [abs_of_pos]) (by norm_num [abs_lt])]
  norm_num

/-- At `v = 0`, `d = 100`, slider 29 the product is rounded to a `double` just below 29, and the
stored value is 28. -/
theorem blendChannel_0_29_100 : blendChannel 0 (multiplierAt 29) 100 = 28 := by
  have hprod : dmul (5224175567749775 / 18014398509481984) ((100 : Int) : ℚ)
      = 8162774324609023 / 281474976710656 := by
    rw [dmul, roundDouble_eval _ 4 8162774324609023
      (by norm_num [abs_of_pos]) (by norm_num [abs_of_pos]) (by norm_num [abs_lt])]
    norm_num
  have hsum : dadd ((0 : Nat) : ℚ) (8162774324609023 / 281474976710656)
      = 8162774324609023 / 281474976710656 := by
    rw [dadd, roundDouble_eval _ 4 8162774324609023
      (by norm_num [abs_of_pos]) (by norm_num [abs_of_pos]) (by norm_num [abs_lt])]
    norm_num
  have htrunc : truncToInt (8162774324609023 / 281474976710656 : ℚ) = 28 := by
    rw [truncToInt, if_pos (by norm_num), Int.floor_eq_iff]
    constructor <;> norm_num
  rw [blendChannel, blendValue, multiplierAt_29, hprod, hsum, htrunc]
  decide

end ImageChange

/-! ## Loops that can run into undefined behaviour -/

namespace Cxx

/-- A loop over an optional state whose iterations all succeed, each writing its own block of
`n` cells: the loop succeeds and every cell of every block holds the value written for it. -/
theorem foldl_bind_block {α : Type} (n : Nat) (step : Nat → List α → Option (List α))
    (v : Nat → Nat → α) (cols : Nat) (r0 : List α)
    (hstep : ∀ q r, q < cols → r.length = r0.length →
      ∃ r', step q r = some r' ∧ r'.length = r.length ∧
        (∀ c, c < n → r'[q * n + c]? = some (v q c)) ∧
        (∀ idx, (idx < q * n ∨ q * n + n ≤ idx) → r'[idx]? = r[idx]?)) :
    ∃ r, (List.range cols).foldl (fun st q => st.bind (step q)) (some r0) = some r ∧
      r.length = r0.length ∧
      (∀ q c, q < cols → c < n → r[q * n + c]? = some (v q c)) ∧
      (∀ idx, cols * n ≤ idx → r[idx]? = r0[idx]?) := by
  apply foldl_range_induction
    (fun k (st : Option (List α)) => ∃ r, st = some r ∧ r.length = r0.length ∧
      (∀ q c, q < k → c < n → r[q * n + c]? = some (v q c)) ∧
      (∀ idx, k * n ≤ idx → r[idx]? = r0[idx]?))
    (fun q st => st.bind (step q))
  · exact ⟨r0, rfl, rfl, fun q c hq => by omega, fun idx _ => rfl⟩
  · intro k st hk hP
    obtain ⟨r, rfl, hl, hP, hQ⟩ := hP
    obtain ⟨r', hs, hl', hin, hout⟩ := hstep k r hk hl
    refine ⟨r', by rw [Option.some_bind, hs], by rw [hl', hl], ?_, ?_⟩
    · intro q c hq hc
      by_cases hqk : q = k
      · subst hqk
        exact hin c hc
      · have hlt : q < k := by omega
        have hmul : (q + 1) * n ≤ k * n := Nat.mul_le_mul_right n hlt
        rw [Nat.succ_mul] at hmul
        rw [hout (q * n + c) (Or.inl (by omega))]
        exact hP q c hlt hc
    · intro idx hidx
      rw [Nat.succ_mul] at hidx
      rw [hout idx (Or.inr (by omega))]
      exact hQ idx (by omega)

/-- A loop over an optional state with an iteration that fails from every state fails. -/
theorem foldl_bind_none {α : Type} (step : Nat → α → Option α) (q0 : Nat)
    (hfail : ∀ r, step q0 r = none) :
    ∀ (cols : Nat) (st : Option α), q0 < cols →
      (List.range cols).foldl (fun st q => st.bind (step q)) st = none := by
  intro cols
  induction cols with
  | zero => intro st h; omega
  | succ m ih =>
    intro st h
    rw [List.range_succ, List.foldl_append]
    simp only [List.foldl_cons, List.foldl_nil]
    by_cases hq : q0 = m
    · subst hq
      cases hst : (List.range q0).foldl (fun st q => st.bind (step q)) st with
      | none => rfl
      | some r => exact hfail r
    · rw [ih st (by omega)]
      rfl

end Cxx

/-! ## The delta matrix of `united_colors_effect.cpp` -/

namespace UnitedColorsEffect

open Cxx

theorem storeAt_some (d : List Int) (i : Nat) (x : Int) (h : i < d.length) :
    storeAt d i x = some (d.set i x) := by
  rw [storeAt, if_pos h]

theorem Mat.elem_some (m : Mat) (k c : Nat) (h : k * m.channels + c < m.data.length) :
    m.elem k c = some (m.channelValue k c) := by
  rw [Mat.elem, Mat.channelValue, List.getD_eq_getElem?_getD, List.getElem?_eq_getElem h]
  rfl

/-- An iteration of the 3-channel loop whose reads and writes stay inside the storages. -/
theorem fillStep3_some (stride : Nat) (img : Mat) (k : Nat) (d : List Int)
    (hread : k * img.channels + 2 < img.data.length) (hwrite : k * stride + 2 < d.length) :
    fillStep3 stride img k d = some
      (((d.set (k * stride) (fillValue3 img k 0)).set (k * stride + 1) (fillValue3 img k 1)).set
        (k * stride + 2) (fillValue3 img k 2)) := by
  have h20 : (2 : Nat) ≠ 0 := by decide
  have h21 : (2 : Nat) ≠ 1 := by decide
  rw [fillStep3, Mat.elem_some img k 0 (by omega), Mat.elem_some img k 1 (by omega),
    Mat.elem_some img k 2 (by omega)]
  simp only [Option.some_bind]
  rw [storeAt_some _ _ _ (by omega)]
  simp only [Option.some_bind]
  rw [storeAt_some _ _ _ (by simp; omega)]
  simp only [Option.some_bind]
  rw [storeAt_some _ _ _ (by simp; omega)]
  simp only [fillValue3, if_true, if_false, Nat.one_ne_zero, if_neg h20, if_neg h21]

/-- An iteration of the 4-channel loop whose reads and writes stay inside the storages. -/
theorem fillStep4_some (stride : Nat) (img : Mat) (k : Nat) (d : List Int)
    (hread : k * img.channels + 2 < img.data.length) (hwrite : k * stride + 3 < d.length) :
    fillStep4 stride img k d = some
      ((((d.set (k * stride) (fillValue4 img k 0)).set (k * stride + 1)
        (fillValue4 img k 1)).set (k * stride + 2) (fillValue4 img k 2)).set
        (k * stride + 3) (fillValue4 img k 3)) := by
  have h03 : (0 : Nat) ≠ 3 := by decide
  have h13 : (1 : Nat) ≠ 3 := by decide
  have h23 : (2 : Nat) ≠ 3 := by decide
  rw [fillStep4, fillStep3_some stride img k d hread (by omega)]
  simp only [Option.some_bind]
  rw [storeAt_some _ _ _ (by simp; omega)]
  simp only [fillValue4, if_neg h03, if_neg h13, if_neg h23, if_true]

/-- An iteration of the 4-channel loop that reads channel 2 past the end of the image. -/
theorem fillStep4_none (stride : Nat) (img : Mat) (k : Nat) (d : List Int)
    (hread : img.data.length ≤ k * img.channels + 2) : fillStep4 stride img k d = none := by
  have h2 : img.elem k 2 = none := by
    rw [Mat.elem]
    exact List.getElem?_eq_none hread
  rw [fillStep4, fillStep3, h2]
  cases img.elem k 0 with
  | none => rfl
  | some b0 =>
    simp only [Option.some_bind]
    cases storeAt d (k * stride) (toShort (-b0)) with
    | none => rfl
    | some d1 => rfl

theorem fillLoop3 (img : Mat) (d0 : List Int)
    (hread : img.data.length = img.total * img.channels) (hch : 3 ≤ img.channels)
    (hwrite : d0.length = img.total * 3) :
    ∃ d, forLoop img.total 1 (fun k st => st.bind (fillStep3 3 img k)) (some d0) = some d ∧
      d.length = d0.length ∧
      ∀ k c, k < img.total → c < 3 → d[k * 3 + c]? = some (fillValue3 img k c) := by
  rw [forLoop_one_eq_foldl]
  obtain ⟨d, h1, h2, h3, _⟩ := foldl_bind_block 3 (fillStep3 3 img) (fillValue3 img) img.total d0
    (by
      intro q r hq hl
      have hmul : (q + 1) * img.channels ≤ img.total * img.channels :=
        Nat.mul_le_mul_right _ hq
      rw [Nat.succ_mul] at hmul
      refine ⟨_, fillStep3_some 3 img q r (by omega) (by omega), by simp, ?_, ?_⟩
      · intro c hc
        have hc3 : c = 0 ∨ c = 1 ∨ c = 2 := by omega
        rcases hc3 with rfl | rfl | rfl
        · simp only [List.getElem?_set, List.length_set]
          simp
          omega
        · simp only [List.getElem?_set, List.length_set]
          simp
          omega
        · simp only [List.getElem?_set, List.length_set]
          simp
          omega
      · intro idx hidx
        simp only [List.getElem?_set, List.length_set]
        rw [if_neg (by omega), if_neg (by omega), if_neg (by omega)])
  exact ⟨d, h1, h2, h3⟩

theorem fillLoop4 (img : Mat) (d0 : List Int)
    (hread : img.data.length = img.total * img.channels) (hch : 3 ≤ img.channels)
    (hwrite : d0.length = img.total * 4) :
    ∃ d, forLoop img.total 1 (fun k st => st.bind (fillStep4 4 img k)) (some d0) = some d ∧
      d.length = d0.length ∧
      ∀ k c, k < img.total → c < 4 → d[k * 4 + c]? = some (fillValue4 img k c) := by
  rw [forLoop_one_eq_foldl]
  obtain ⟨d, h1, h2, h3, _⟩ := foldl_bind_block 4 (fillStep4 4 img) (fillValue4 img) img.total d0
    (by
      intro q r hq hl
      have hmul : (q + 1) * img.channels ≤ img.total * img.channels :=
        Nat.mul_le_mul_right _ hq
      rw [Nat.succ_mul] at hmul
      refine ⟨_, fillStep4_some 4 img q r (by omega) (by omega), by simp, ?_, ?_⟩
      · intro c hc
        have hc4 : c = 0 ∨ c = 1 ∨ c = 2 ∨ c = 3 := by omega
        rcases hc4 with rfl | rfl | rfl | rfl
        · simp only [List.getElem?_set, List.length_set]
          simp
          omega
        · simp only [List.getElem?_set, List.length_set]
          simp
          omega
        · simp only [List.getElem?_set, List.length_set]
          simp
          omega
        · simp only [List.getElem?_set, List.length_set]
          simp
          omega
      · intro idx hidx
        simp only [List.getElem?_set, List.length_set]
        rw [if_neg (by omega), if_neg (by omega), if_neg (by omega), if_neg (by omega)])
  exact ⟨d, h1, h2, h3⟩

theorem Mat.alloc_channels (rows cols n : Nat) (uninit : Nat → Int) (hn : 0 < n) :
    (Mat.alloc rows cols (CV_MAKETYPE CV_16S n) uninit).channels = n := by
  simp only [Mat.alloc, Mat.channels, CV_MAKETYPE, CV_16S]
  omega

theorem Mat.alloc_length (rows cols n : Nat) (uninit : Nat → Int) (hn : 0 < n) :
    (Mat.alloc rows cols (CV_MAKETYPE CV_16S n) uninit).data.length = rows * cols * n := by
  simp only [Mat.alloc, CV_MAKETYPE, CV_16S, List.length_map, List.length_range]
  congr 1
  omega

theorem Mat.WellFormed8U.channelValue {img : Mat} (h : img.WellFormed8U) (k c : Nat) :
    0 ≤ img.channelValue k c ∧ img.channelValue k c < 256 := by
  rw [Mat.channelValue, List.getD_eq_getElem?_getD]
  by_cases hj : k * img.channels + c < img.data.length
  · rw [List.getElem?_eq_getElem hj]
    exact h.2 _ (List.getElem_mem hj)
  · rw [List.getElem?_eq_none (by omega)]
    simp

/-- On a non-empty image of 1 or 2 channels the 4-channel branch of `fill_transform_matrix` reads
past the end of the image storage: the behaviour is undefined. -/
theorem fill_transform_matrix_undefined (tm img : Mat)
    (hlen : img.data.length = img.total * img.channels) (hch : img.channels ≤ 2)
    (hpos : 0 < img.total) : fill_transform_matrix tm img = none := by
  have hne : ¬ img.channels = N_RGB_CHANNELS := by
    simp only [N_RGB_CHANNELS]
    omega
  have hlast : img.data.length ≤ (img.total - 1) * img.channels + 2 := by
    have hmul : (img.total - 1 + 1) * img.channels = img.total * img.channels := by
      rw [Nat.sub_add_cancel hpos]
    rw [Nat.succ_mul] at hmul
    omega
  rw [fill_transform_matrix, if_neg hne, forLoop_one_eq_foldl,
    foldl_bind_none (fillStep4 tm.channels img) (img.total - 1)
      (fun r => fillStep4_none tm.channels img (img.total - 1) r hlast) img.total _ (by omega)]
  rfl

theorem fill_transform_matrix_header (tm img tm2 : Mat)
    (h : fill_transform_matrix tm img = some tm2) :
    tm2.rows = tm.rows ∧ tm2.cols = tm.cols ∧ tm2.type = tm.type := by
  unfold fill_transform_matrix at h
  split at h
  · obtain ⟨d, _, hd⟩ := Option.map_eq_some'.mp h
    subst hd
    exact ⟨rfl, rfl, rfl⟩
  · obtain ⟨d, _, hd⟩ := Option.map_eq_some'.mp h
    subst hd
    exact ⟨rfl, rfl, rfl⟩

end UnitedColorsEffect

namespace ImageChange

open Cxx

/-- The delta matrix that `main` builds for a 3-channel image, pixel by pixel. -/
theorem mainBuild_deltaAt3 (uninit : Nat → Nat → Int) (img : Mat) (hwf : img.WellFormed)
    (h3 : img.channels = 3) (i k : Nat) (hi : i < img.rows) (hk : k < img.cols) :
    (mainBuild uninit img).deltaAt i (k * 3) = some (-(img.px i (k * 3))) ∧
    (mainBuild uninit img).deltaAt i (k * 3 + 1)
      = some (img.px i (k * 3 + 2) - img.px i (k * 3 + 1)) ∧
    (mainBuild uninit img).deltaAt i (k * 3 + 2) = some (255 - img.px i (k * 3 + 2)) := by
  have hb := (hwf.row hi).2.2
  have b0 := hb (k * 3)
  have b1 := hb (k * 3 + 1)
  have b2 := hb (k * 3 + 2)
  have e := fun c hc => createConvertingMatrix_deltaAt3 uninit (loadedGlobals img) img.cols
    (by simp [loadedGlobals, h3]) (by simp [loadedGlobals, h3]) i k c
    (by simpa [loadedGlobals] using hi) hk hc
  have horig : (loadedGlobals img).imgOriginal = img := rfl
  have e0 := e 0 (by decide)
  have e1 := e 1 (by decide)
  have e2 := e 2 (by decide)
  rw [horig] at e0 e1 e2
  rw [mainBuild_eq uninit img (by omega)]
  refine ⟨?_, ?_, ?_⟩
  · rw [show k * 3 = k * 3 + 0 from rfl, e0]
    simp only [delta3, Mat.px, if_true, Nat.add_zero]
    rw [toShort_of_fits _ (by omega) (by omega)]
  · rw [e1]
    simp only [delta3, Mat.px, if_true, if_false, Nat.one_ne_zero]
    rw [toShort_of_fits _ (by omega) (by omega)]
  · rw [e2]
    have h20 : (2 : Nat) ≠ 0 := by decide
    have h21 : (2 : Nat) ≠ 1 := by decide
    simp only [delta3, Mat.px, if_neg h20, if_neg h21]
    rw [toShort_of_fits _ (by omega) (by omega)]

/-- The delta matrix that `main` builds for a 4-channel image, pixel by pixel. -/
theorem mainBuild_deltaAt4 (uninit : Nat → Nat → Int) (img : Mat) (hwf : img.WellFormed)
    (h4 : img.channels = 4) (i k : Nat) (hi : i < img.rows) (hk : k < img.cols) :
    (mainBuild uninit img).deltaAt i (k * 4) = some (-(img.px i (k * 4))) ∧
    (mainBuild uninit img).deltaAt i (k * 4 + 1)
      = some (img.px i (k * 4 + 2) - img.px i (k * 4 + 1)) ∧
    (mainBuild uninit img).deltaAt i (k * 4 + 2) = some (255 - img.px i (k * 4 + 2)) ∧
    (mainBuild uninit img).deltaAt i (k * 4 + 3) = some 0 := by
  have hb := (hwf.row hi).2.2
  have b0 := hb (k * 4)
  have b1 := hb (k * 4 + 1)
  have b2 := hb (k * 4 + 2)
  have e := fun c hc => createConvertingMatrix_deltaAt4 uninit (loadedGlobals img) img.cols
    (by simp [loadedGlobals, h4]) (by simp [loadedGlobals, h4]) i k c
    (by simpa [loadedGlobals] using hi) hk hc
  have horig : (loadedGlobals img).imgOriginal = img := rfl
  have e0 := e 0 (by decide)
  have e1 := e 1 (by decide)
  have e2 := e 2 (by decide)
  have e3 := e 3 (by decide)
  rw [horig] at e0 e1 e2 e3
  rw [mainBuild_eq uninit img (by omega)]
  refine ⟨?_, ?_, ?_, ?_⟩
  · rw [show k * 4 = k * 4 + 0 from rfl, e0]
    simp only [delta4, Mat.px, if_true, Nat.add_zero]
    rw [toShort_of_fits _ (by omega) (by omega)]
  · rw [e1]
    simp only [delta4, Mat.px, if_true, if_false, Nat.one_ne_zero]
    rw [toShort_of_fits _ (by omega) (by omega)]
  · rw [e2]
    have h20 : (2 : Nat) ≠ 0 := by decide
    have h21 : (2 : Nat) ≠ 1 := by decide
    simp only [delta4, Mat.px, if_neg h20, if_neg h21, if_true]
    rw [toShort_of_fits _ (by omega) (by omega)]
  · rw [e3]
    have h30 : (3 : Nat) ≠ 0 := by decide
    have h31 : (3 : Nat) ≠ 1 := by decide
    have h32 : (3 : Nat) ≠ 2 := by decide
    simp only [delta4, if_neg h30, if_neg h31, if_neg h32]

end ImageChange

namespace UnitedColorsEffect

open Cxx

/-- The matrix that `fill_transform_matrix` fills for a 3-channel image, pixel by pixel. -/
theorem fill_transform_matrix_at3 (uninit : Nat → Int) (img : Mat) (hwf : img.WellFormed8U)
    (h3 : img.channels = 3) :
    ∃ tm, fill_transform_matrix (Mat.alloc img.rows img.cols (CV_MAKETYPE CV_16S 3) uninit) img
        = some tm ∧
      ∀ k, k < img.total →
        tm.data[k * 3]? = some (-(img.channelValue k 0)) ∧
        tm.data[k * 3 + 1]? = some (img.channelValue k 2 - img.channelValue k 1) ∧
        tm.data[k * 3 + 2]? = some (255 - img.channelValue k 2) := by
  have hlen := Mat.alloc_length img.rows img.cols 3 uninit (by decide)
  have hchan := Mat.alloc_channels img.rows img.cols 3 uninit (by decide)
  obtain ⟨d, hd, _, hval⟩ := fillLoop3 img
    (Mat.alloc img.rows img.cols (CV_MAKETYPE CV_16S 3) uninit).data hwf.1 (by omega)
    (by rw [hlen]; rfl)
  refine ⟨{ Mat.alloc img.rows img.cols (CV_MAKETYPE CV_16S 3) uninit with data := d }, ?_, ?_⟩
  · rw [fill_transform_matrix, if_pos (by rw [h3]; rfl), hchan, hd]
    rfl
  · intro k hk
    have b0 := hwf.channelValue k 0
    have b1 := hwf.channelValue k 1
    have b2 := hwf.channelValue k 2
    have e0 := hval k 0 hk (by decide)
    have e1 := hval k 1 hk (by decide)
    have e2 := hval k 2 hk (by decide)
    have h20 : (2 : Nat) ≠ 0 := by decide
    have h21 : (2 : Nat) ≠ 1 := by decide
    refine ⟨?_, ?_, ?_⟩
    · rw [show k * 3 = k * 3 + 0 from rfl, e0]
      simp only [fillValue3, if_true]
      rw [toShort_of_fits _ (by omega) (by omega)]
    · rw [e1]
      simp only [fillValue3, if_true, if_false, Nat.one_ne_zero]
      rw [toShort_of_fits _ (by omega) (by omega)]
    · rw [e2]
      simp only [fillValue3, if_neg h20, if_neg h21]
      rw [toShort_of_fits _ (by omega) (by omega)]

/-- The matrix that `fill_transform_matrix` fills by the 4-channel rule, pixel by pixel, for an
image of 4 or more channels. -/
theorem fill_transform_matrix_at4 (uninit : Nat → Int) (img : Mat) (hwf : img.WellFormed8U)
    (h4 : 4 ≤ img.channels) :
    ∃ tm, fill_transform_matrix (Mat.alloc img.rows img.cols (CV_MAKETYPE CV_16S 4) uninit) img
        = some tm ∧
      ∀ k, k < img.total →
        tm.data[k * 4]? = some (-(img.channelValue k 0)) ∧
        tm.data[k * 4 + 1]? = some (img.channelValue k 2 - img.channelValue k 1) ∧
        tm.data[k * 4 + 2]? = some (255 - img.channelValue k 2) ∧
        tm.data[k * 4 + 3]? = some 0 := by
  have hlen := Mat.alloc_length img.rows img.cols 4 uninit (by decide)
  have hchan := Mat.alloc_channels img.rows img.cols 4 uninit (by decide)
  obtain ⟨d, hd, _, hval⟩ := fillLoop4 img
    (Mat.alloc img.rows img.cols (CV_MAKETYPE CV_16S 4) uninit).data hwf.1 (by omega)
    (by rw [hlen]; rfl)
  refine ⟨{ Mat.alloc img.rows img.cols (CV_MAKETYPE CV_16S 4) uninit with data := d }, ?_, ?_⟩
  · rw [fill_transform_matrix, if_neg (by simp only [N_RGB_CHANNELS]; omega), hchan, hd]
    rfl
  · intro k hk
    have b0 := hwf.channelValue k 0
    have b1 := hwf.channelValue k 1
    have b2 := hwf.channelValue k 2
    have e0 := hval k 0 hk (by decide)
    have e1 := hval k 1 hk (by decide)
    have e2 := hval k 2 hk (by decide)
    have e3 := hval k 3 hk (by decide)
    have h03 : (0 : Nat) ≠ 3 := by decide
    have h13 : (1 : Nat) ≠ 3 := by decide
    have h23 : (2 : Nat) ≠ 3 := by decide
    have h20 : (2 : Nat) ≠ 0 := by decide
    have h21 : (2 : Nat) ≠ 1 := by decide
    refine ⟨?_, ?_, ?_, ?_⟩
    · rw [show k * 4 = k * 4 + 0 from rfl, e0]
      simp only [fillValue4, fillValue3, if_neg h03, if_true]
      rw [toShort_of_fits _ (by omega) (by omega)]
    · rw [e1]
      simp only [fillValue4, fillValue3, if_neg h13, if_true, if_false, Nat.one_ne_zero]
      rw [toShort_of_fits _ (by omega) (by omega)]
    · rw [e2]
      simp only [fillValue4, fillValue3, if_neg h23, if_neg h20, if_neg h21]
      rw [toShort_of_fits _ (by omega) (by omega)]
    · rw [e3]
      simp only [fillValue4, if_true]

end UnitedColorsEffect

namespace ImageChange

open Cxx

theorem Globals.getD_of_deltaAt {g : Globals} {i j : Nat} {d : Int}
    (h : g.deltaAt i j = some d) : (g.convertingMatrix.getD i []).getD j 0 = d := by
  rw [Globals.deltaAt] at h
  rw [List.getD_eq_getElem?_getD, h]
  rfl

theorem mainBuild_fields (uninit : Nat → Nat → Int) (img : Mat) (h : img.channels ≠ 1) :
    (mainBuild uninit img).imgChanged = img ∧ (mainBuild uninit img).imgOriginal = img ∧
    (mainBuild uninit img).nRows = img.rows ∧
    (mainBuild uninit img).nCols = img.cols * img.channels ∧
    (mainBuild uninit img).nChannels = img.channels := by
  rw [mainBuild_eq uninit img h]
  exact createConvertingMatrix_fields uninit (loadedGlobals img)

/-- The byte that a slider move stores at row `i`, position `j` of the image `main` loaded. -/
theorem mainBuild_sliderMoved_byteAt (uninit : Nat → Nat → Int) (img : Mat)
    (hwf : img.WellFormed) (h : img.channels ≠ 1) (p : Int) (i j : Nat) (hi : i < img.rows)
    (hj : j < img.cols * img.channels) :
    (sliderMoved (mainBuild uninit img) p).imgChanged.byteAt i j =
      some (blendChannel ((img.ptr i).getD j 0) (multiplierAt p)
        (((mainBuild uninit img).convertingMatrix.getD i []).getD j 0)) := by
  obtain ⟨f1, f2, f3, f4, _⟩ := mainBuild_fields uninit img h
  obtain ⟨r1, r2, _⟩ := hwf.row hi
  have e := sliderMoved_byteAt (mainBuild uninit img) p i j (by rw [f3]; exact hi)
    (by rw [f4]; exact hj) (by rw [f1]; exact r1) (by rw [f1, r2]; exact hj)
  rw [e, f2]

theorem blendRow_zero (nCols : Nat) (conv : List Int) (row : List Nat)
    (hb : ∀ j, row.getD j 0 < 256) :
    blendRow nCols (multiplierAt 0) row conv row = row := by
  apply List.ext_getElem?
  intro j
  rw [blendRow_getElem?]
  by_cases hj : j < nCols
  · rw [if_pos hj, blendChannel_zero _ _ (hb j)]
    by_cases hl : j < row.length
    · rw [List.getD_eq_getElem?_getD, List.getElem?_eq_getElem hl]
      rfl
    · rw [List.getElem?_eq_none (by omega)]
      rfl
  · rw [if_neg hj]

end ImageChange

namespace Cxx

theorem truncToInt_bounds (x : ℚ) (h0 : 0 ≤ x) (h1 : x ≤ 255) :
    0 ≤ truncToInt x ∧ truncToInt x ≤ 255 := by
  rw [truncToInt, if_pos h0]
  refine ⟨Int.floor_nonneg.mpr h0, ?_⟩
  have h : ((⌊x⌋ : Int) : ℚ) ≤ 255 := le_trans (Int.floor_le x) h1
  exact_mod_cast h

theorem toUchar_eq_saturateUchar (z : Int) (h0 : 0 ≤ z) (h1 : z ≤ 255) :
    toUchar z = saturateUchar z ∧ toUchar z = z.toNat := by
  rw [toUchar, saturateUchar, if_neg (by omega), if_neg (by omega)]
  have : z % 256 = z := by omega
  rw [this]
  exact ⟨rfl, rfl⟩

/-- Rounding keeps a value between two small integers between them. -/
theorem roundDouble_between (x : ℚ) (a b : Int) (ha0 : -1000 ≤ a) (hb1 : b ≤ 1000)
    (ha : (a : ℚ) ≤ x) (hb : x ≤ (b : ℚ)) :
    (a : ℚ) ≤ roundDouble x ∧ roundDouble x ≤ (b : ℚ) := by
  have a0 : (-1000 : ℚ) ≤ (a : ℚ) := by exact_mod_cast ha0
  have b1 : (b : ℚ) ≤ 1000 := by exact_mod_cast hb1
  have habs : |x| < (2 : ℚ) ^ (53 : Int) := by
    rw [abs_lt]
    constructor
    · exact lt_of_lt_of_le (by norm_num) (le_trans a0 ha)
    · exact lt_of_le_of_lt (le_trans hb b1) (by norm_num)
  exact ⟨roundDouble_ge_int x a habs ha, roundDouble_le_int x b habs hb⟩

end Cxx

namespace ImageChange

open Cxx

/-- Channel 0: the computed value lies between 0 and the original value. -/
theorem blendValue_channel0 (v : Nat) (m : ℚ) (hv : v < 256) (hm0 : 0 ≤ m) (hm1 : m ≤ 1) :
    0 ≤ blendValue v m (-(v : Int)) ∧ blendValue v m (-(v : Int)) ≤ (v : ℚ) := by
  have hv0 : (0 : ℚ) ≤ (v : ℚ) := Nat.cast_nonneg v
  obtain ⟨p0, p1⟩ := roundDouble_between (m * ((-(v : Int) : Int) : ℚ)) (-(v : Int)) 0
    (by omega) (by omega) (by push_cast; nlinarith) (by push_cast; nlinarith)
  obtain ⟨s0, s1⟩ := roundDouble_between ((v : ℚ) + dmul m ((-(v : Int) : Int) : ℚ)) 0 (v : Int)
    (by omega) (by omega)
    (by rw [dmul]; push_cast at p0 ⊢; linarith)
    (by rw [dmul]; push_cast at p1 ⊢; linarith)
  rw [blendValue, dadd]
  exact ⟨by simpa using s0, by simpa using s1⟩

/-- Channel 1: the computed value lies between the original channel 1 and channel 2 values. -/
theorem blendValue_channel1 (v1 v2 : Nat) (m : ℚ) (h1 : v1 < 256) (h2 : v2 < 256)
    (hm0 : 0 ≤ m) (hm1 : m ≤ 1) :
    min (v1 : ℚ) (v2 : ℚ) ≤ blendValue v1 m ((v2 : Int) - (v1 : Int)) ∧
    blendValue v1 m ((v2 : Int) - (v1 : Int)) ≤ max (v1 : ℚ) (v2 : ℚ) := by
  rw [blendValue, dadd, dmul]
  rcases le_total (v1 : ℚ) (v2 : ℚ) with h | h
  · rw [min_eq_left h, max_eq_right h]
    obtain ⟨p0, p1⟩ := roundDouble_between (m * (((v2 : Int) - (v1 : Int) : Int) : ℚ)) 0
      ((v2 : Int) - (v1 : Int)) (by omega) (by omega) (by push_cast; nlinarith)
      (by push_cast; nlinarith)
    obtain ⟨s0, s1⟩ := roundDouble_between
      ((v1 : ℚ) + roundDouble (m * (((v2 : Int) - (v1 : Int) : Int) : ℚ))) (v1 : Int) (v2 : Int)
      (by omega) (by omega)
      (by push_cast at p0 ⊢; linarith) (by push_cast at p1 ⊢; linarith)
    exact ⟨by simpa using s0, by simpa using s1⟩
  · rw [min_eq_right h, max_eq_left h]
    obtain ⟨p0, p1⟩ := roundDouble_between (m * (((v2 : Int) - (v1 : Int) : Int) : ℚ))
      ((v2 : Int) - (v1 : Int)) 0 (by omega) (by omega) (by push_cast; nlinarith)
      (by push_cast; nlinarith)
    obtain ⟨s0, s1⟩ := roundDouble_between
      ((v1 : ℚ) + roundDouble (m * (((v2 : Int) - (v1 : Int) : Int) : ℚ))) (v2 : Int) (v1 : Int)
      (by omega) (by omega)
      (by push_cast at p0 ⊢; linarith) (by push_cast at p1 ⊢; linarith)
    exact ⟨by simpa using s0, by simpa using s1⟩

/-- Channel 2: the computed value lies between the original value and 255. -/
theorem blendValue_channel2 (v : Nat) (m : ℚ) (hv : v < 256) (hm0 : 0 ≤ m) (hm1 : m ≤ 1) :
    (v : ℚ) ≤ blendValue v m (255 - (v : Int)) ∧ blendValue v m (255 - (v : Int)) ≤ 255 := by
  have hv' : (v : ℚ) ≤ 255 := by
    have : v ≤ 255 := by omega
    exact_mod_cast this
  rw [blendValue, dadd, dmul]
  obtain ⟨p0, p1⟩ := roundDouble_between (m * ((255 - (v : Int) : Int) : ℚ)) 0
    (255 - (v : Int)) (by omega) (by omega) (by push_cast; nlinarith) (by push_cast; nlinarith)
  obtain ⟨s0, s1⟩ := roundDouble_between
    ((v : ℚ) + roundDouble (m * ((255 - (v : Int) : Int) : ℚ))) (v : Int) 255
    (by omega) (by omega)
    (by push_cast at p0 ⊢; linarith) (by push_cast at p1 ⊢; linarith)
  exact ⟨by simpa using s0, by simpa using s1⟩

/-- Channel 3: the computed value is the original value. -/
theorem blendValue_channel3 (v : Nat) (m : ℚ) (hv : v < 256) : blendValue v m 0 = (v : ℚ) := by
  have hvq : |((v : Int) : ℚ)| < (2 : ℚ) ^ (53 : Int) := by
    have h1 : ((v : Int) : ℚ) < 256 := by exact_mod_cast hv
    have h0 : (0 : ℚ) ≤ ((v : Int) : ℚ) := by exact_mod_cast Int.natCast_nonneg v
    rw [abs_of_nonneg h0]
    exact lt_trans h1 (by norm_num)
  have hsum : (v : ℚ) + dmul m ((0 : Int) : ℚ) = ((v : Int) : ℚ) := by
    simp [dmul, roundDouble]
  rw [blendValue, dadd, hsum, roundDouble_intCast _ hvq]
  simp

/-- Channel 0 with an exact fraction: between 0 and the original value. -/
theorem exactValue_channel0 (v : Nat) (p : Int) (hp0 : 0 ≤ p) (hp1 : p ≤ 100) :
    0 ≤ exactValue v p (-(v : Int)) ∧ exactValue v p (-(v : Int)) ≤ (v : ℚ) := by
  have hv : (0 : ℚ) ≤ (v : ℚ) := Nat.cast_nonneg v
  have h0 : (0 : ℚ) ≤ (p : ℚ) := by exact_mod_cast hp0
  have h1 : (p : ℚ) ≤ 100 := by exact_mod_cast hp1
  have e : exactValue v p (-(v : Int)) = (v : ℚ) * (1 - (p : ℚ) / 100) := by
    rw [exactValue]; push_cast; ring
  rw [e]
  constructor
  · exact mul_nonneg hv (by linarith)
  · nlinarith

/-- Channel 1 with an exact fraction: between the channel 1 and channel 2 values. -/
theorem exactValue_channel1 (v1 v2 : Nat) (p : Int) (hp0 : 0 ≤ p) (hp1 : p ≤ 100) :
    min (v1 : ℚ) (v2 : ℚ) ≤ exactValue v1 p ((v2 : Int) - (v1 : Int)) ∧
    exactValue v1 p ((v2 : Int) - (v1 : Int)) ≤ max (v1 : ℚ) (v2 : ℚ) := by
  have h0 : (0 : ℚ) ≤ (p : ℚ) := by exact_mod_cast hp0
  have h1 : (p : ℚ) ≤ 100 := by exact_mod_cast hp1
  have e : exactValue v1 p ((v2 : Int) - (v1 : Int))
      = (v1 : ℚ) + (p : ℚ) / 100 * ((v2 : ℚ) - (v1 : ℚ)) := by
    rw [exactValue]; push_cast; ring
  rw [e]
  rcases le_total (v1 : ℚ) (v2 : ℚ) with h | h
  · rw [min_eq_left h, max_eq_right h]
    constructor <;> nlinarith
  · rw [min_eq_right h, max_eq_left h]
    constructor <;> nlinarith

/-- Channel 2 with an exact fraction: between the original value and 255. -/
theorem exactValue_channel2 (v : Nat) (p : Int) (hv : v < 256) (hp0 : 0 ≤ p) (hp1 : p ≤ 100) :
    (v : ℚ) ≤ exactValue v p (255 - (v : Int)) ∧ exactValue v p (255 - (v : Int)) ≤ 255 := by
  have hv' : (v : ℚ) ≤ 255 := by
    have : v ≤ 255 := by omega
    exact_mod_cast this
  have h0 : (0 : ℚ) ≤ (p : ℚ) := by exact_mod_cast hp0
  have h1 : (p : ℚ) ≤ 100 := by exact_mod_cast hp1
  have e : exactValue v p (255 - (v : Int)) = (v : ℚ) + (p : ℚ) / 100 * (255 - (v : ℚ)) := by
    rw [exactValue]; push_cast; ring
  rw [e]
  constructor <;> nlinarith

/-- Channel 3 with an exact fraction: the original value. -/
theorem exactValue_channel3 (v : Nat) (p : Int) : exactValue v p 0 = (v : ℚ) := by
  rw [exactValue]; push_cast; ring

end ImageChange

namespace ImageChange

open Cxx

/-- A computed value inside the byte range is stored without wrapping, as saturation would
store it. -/
theorem mainBuild_stored_of_bounds (uninit : Nat → Nat → Int) (img : Mat)
    (hwf : img.WellFormed) (h : img.channels ≠ 1) (p : Int) (i j : Nat) (hi : i < img.rows)
    (hj : j < img.cols * img.channels)
    (h0 : 0 ≤ (mainBuild uninit img).computedValue i j p)
    (h1 : (mainBuild uninit img).computedValue i j p ≤ 255) :
    (sliderMoved (mainBuild uninit img) p).imgChanged.byteAt i j
      = some (saturateUchar (truncToInt ((mainBuild uninit img).computedValue i j p))) ∧
    toUchar (truncToInt ((mainBuild uninit img).computedValue i j p))
      = saturateUchar (truncToInt ((mainBuild uninit img).computedValue i j p)) := by
  obtain ⟨t0, t1⟩ := truncToInt_bounds _ h0 h1
  obtain ⟨s, _⟩ := toUchar_eq_saturateUchar _ t0 t1
  refine ⟨?_, s⟩
  rw [mainBuild_sliderMoved_byteAt uninit img hwf h p i j hi hj, ← s]
  simp only [Globals.computedValue, blendChannel, (mainBuild_fields uninit img h).2.1]

theorem computedValue_eq (uninit : Nat → Nat → Int) (img : Mat) (h : img.channels ≠ 1)
    (p : Int) (i j : Nat) (d : Int) (hd : (mainBuild uninit img).deltaAt i j = some d) :
    (mainBuild uninit img).computedValue i j p
      = blendValue ((img.ptr i).getD j 0) (multiplierAt p) d := by
  rw [Globals.computedValue, Globals.getD_of_deltaAt hd, (mainBuild_fields uninit img h).2.1]

theorem exactValueAt_eq (uninit : Nat → Nat → Int) (img : Mat) (h : img.channels ≠ 1)
    (p : Int) (i j : Nat) (d : Int) (hd : (mainBuild uninit img).deltaAt i j = some d) :
    (mainBuild uninit img).exactValueAt i j p = exactValue ((img.ptr i).getD j 0) p d := by
  rw [Globals.exactValueAt, Globals.getD_of_deltaAt hd, (mainBuild_fields uninit img h).2.1]

end ImageChange

/-! ## The backslash loop -/

namespace Cxx

theorem insertIdx_length_append {α : Type} (a : α) (pre l : List α) :
    (pre ++ l).insertIdx pre.length a = pre ++ a :: l := by
  induction pre with
  | nil => simp
  | cons x xs ih => simp [List.insertIdx_succ_cons, ih]

theorem doubleBackslashes_length (s : List Char) :
    (doubleBackslashes s).length = s.length + s.count '\\' := by
  induction s with
  | nil => rfl
  | cons c rest ih =>
    have e : doubleBackslashes (c :: rest)
        = (if c = '\\' then ['\\', '\\'] else [c]) ++ doubleBackslashes rest := by
      simp [doubleBackslashes]
    rw [e, List.length_append, ih, List.count_cons]
    by_cases hc : c = '\\'
    · simp [hc]; omega
    · simp [hc]; omega

/-- From a state in which the prefix `pre` is already done and the index stands at its end, the
loop returns `pre` followed by the doubled rest, provided the index stays within `int`. -/
theorem slashLoop_spec (suf : List Char) :
    ∀ (pre : List Char) (fuel : Nat), suf.length < fuel →
      pre.length + (doubleBackslashes suf).length ≤ INT_MAX →
      slashLoop fuel (pre ++ suf) pre.length = some (pre ++ doubleBackslashes suf) := by
  induction suf with
  | nil =>
    intro pre fuel hf _
    obtain ⟨f, rfl⟩ : ∃ f, fuel = f + 1 := ⟨fuel - 1, by simp at hf; omega⟩
    simp [slashLoop, doubleBackslashes]
  | cons c rest ih =>
    intro pre fuel hf hmax
    obtain ⟨f, rfl⟩ : ∃ f, fuel = f + 1 := ⟨fuel - 1, by simp at hf; omega⟩
    have hf' : rest.length < f := by simp at hf; omega
    have e : doubleBackslashes (c :: rest)
        = (if c = '\\' then ['\\', '\\'] else [c]) ++ doubleBackslashes rest := by
      simp [doubleBackslashes]
    have hlt : pre.length < (pre ++ c :: rest).length := by simp
    have hget : (pre ++ c :: rest).getD pre.length ' ' = c := by
      rw [List.getD_append_right _ _ _ _ (Nat.le_refl _)]
      simp
    rw [slashLoop, if_pos hlt, hget]
    by_cases hc : c = '\\'
    · rw [e, if_pos hc] at hmax ⊢
      simp only [List.length_append, List.length_cons, List.length_nil] at hmax
      have h1 : incr pre.length = some (pre.length + 1) := by
        rw [incr, if_pos (by omega)]
      have h2 : incr (pre.length + 1) = some (pre.length + 1 + 1) := by
        rw [incr, if_pos (by omega)]
      rw [if_pos hc, h1, Option.some_bind, h2, Option.some_bind, insertIdx_length_append]
      have hstr : pre ++ '\\' :: c :: rest = (pre ++ ['\\', '\\']) ++ rest := by
        simp [hc]
      have hidx : pre.length + 1 + 1 = (pre ++ ['\\', '\\']).length := by simp
      rw [hstr, hidx, ih (pre ++ ['\\', '\\']) f hf' (by simp; omega)]
      simp
    · rw [e, if_neg hc] at hmax ⊢
      simp only [List.length_append, List.length_cons, List.length_nil] at hmax
      have h1 : incr pre.length = some (pre.length + 1) := by
        rw [incr, if_pos (by omega)]
      rw [if_neg hc, h1, Option.some_bind]
      have hstr : pre ++ c :: rest = (pre ++ [c]) ++ rest := by simp
      have hidx : pre.length + 1 = (pre ++ [c]).length := by simp
      rw [hstr, hidx, ih (pre ++ [c]) f hf' (by simp; omega)]
      simp

end Cxx

/-! ## Function `main` of `united_colors_effect.cpp` -/

namespace UnitedColorsEffect

open Cxx

/-- What `main` holds when the window opens. -/
theorem mainSetup_ok (argv : List (List Char)) (imread : List Char → Int → Mat)
    (uninit : Nat → Nat → Int) (s : Session) (h : mainSetup argv imread uninit = Except.ok s) :
    s.img_changed
      = Mat.alloc s.img_original.rows s.img_original.cols s.img_original.type (uninit 0) ∧
    fill_transform_matrix
      (Mat.alloc s.img_original.rows s.img_original.cols
        (if rgbaHint argv then CV_16SC4 else CV_16SC3) (uninit 1)) s.img_original
      = some s.transform_matrix ∧
    s.img_original.empty = false := by
  unfold mainSetup at h
  simp only at h
  by_cases hargc : argv.length ≠ 4 ∧ argv.length ≠ 3
  · rw [if_pos hargc] at h
    cases h
  · rw [if_neg hargc] at h
    cases hp : convert_slash_string (argv.getD 1 []) with
    | none =>
      rw [hp] at h
      cases h
    | some path =>
      rw [hp] at h
      simp only at h
      by_cases hempty : (imread path
          (if rgbaHint argv = true then IMREAD_UNCHANGED else IMREAD_COLOR)).empty = true
      · rw [if_pos hempty] at h
        cases h
      · rw [if_neg hempty] at h
        cases hf : fill_transform_matrix
            (Mat.alloc
              (imread path (if rgbaHint argv = true then IMREAD_UNCHANGED else IMREAD_COLOR)).rows
              (imread path (if rgbaHint argv = true then IMREAD_UNCHANGED else IMREAD_COLOR)).cols
              (if rgbaHint argv = true then CV_16SC4 else CV_16SC3) (uninit 1))
            (imread path (if rgbaHint argv = true then IMREAD_UNCHANGED else IMREAD_COLOR)) with
        | none =>
          rw [hf] at h
          cases h
        | some tm =>
          rw [hf] at h
          simp only at h
          have hs := Except.ok.inj h
          subst hs
          exact ⟨rfl, hf, by simpa using hempty⟩

theorem cvRound_intCast (z : Int) : cvRound (z : ℚ) = z := by
  unfold cvRound
  simp

/-- With the slider at 100 the callback adds the two matrices element by element. -/
theorem on_trackbar_changed_full (context : EffectContext)
    (hp : context.effect_degree_procent = 100)
    (hshape : context.original_img.rows = context.transforming_matrix.rows ∧
      context.original_img.cols = context.transforming_matrix.cols ∧
      context.original_img.type = context.transforming_matrix.type) :
    on_trackbar_changed context = some { context with
      changed_img := { context.changed_img with
        data := (List.zipWith (fun o d => saturateShort (o + d)) context.original_img.data
          context.transforming_matrix.data).map (fun t => (saturateUchar t : Int)) } } := by
  have hm : ddiv (context.effect_degree_procent : ℚ) (EFFECT_SLIDER_MAX : ℚ) = 1 := by
    have h : ((100 : Int) : ℚ) / ((EFFECT_SLIDER_MAX : Int) : ℚ) = ((1 : Int) : ℚ) := by
      simp [EFFECT_SLIDER_MAX]
    rw [hp, ddiv, h, roundDouble_intCast 1 (by norm_num)]
    norm_num
  have hfun : (fun (o d : Int) => saturateShort (cvRound ((o : ℚ) +
      ddiv (context.effect_degree_procent : ℚ) (EFFECT_SLIDER_MAX : ℚ) * (d : ℚ))))
      = fun o d => saturateShort (o + d) := by
    funext o d
    have e : (o : ℚ) + ddiv (context.effect_degree_procent : ℚ) (EFFECT_SLIDER_MAX : ℚ) * (d : ℚ)
        = ((o + d : Int) : ℚ) := by
      rw [hm]
      push_cast
      ring
    rw [e, cvRound_intCast]
  unfold on_trackbar_changed
  simp only [if_pos hshape, hfun]

end UnitedColorsEffect

namespace ImageChange

open Cxx

/-- The delta matrix that `main` builds has one row for each image row, each with one entry for
each byte of the image row. -/
theorem mainBuild_shape (uninit : Nat → Nat → Int) (img : Mat)
    (hch : img.channels = 3 ∨ img.channels = 4) :
    (mainBuild uninit img).convertingMatrix.length = img.rows ∧
    ∀ i, i < img.rows →
      ((mainBuild uninit img).convertingMatrix.getD i []).length = img.cols * img.channels := by
  have hne : img.channels ≠ 1 := by omega
  rw [mainBuild_eq uninit img hne]
  have halloc : (allocMatrix img.rows (img.cols * img.channels) uninit).length = img.rows := by
    simp [allocMatrix]
  rcases hch with h | h
  · have hcm : (createConvertingMatrix uninit (loadedGlobals img)).convertingMatrix =
        (List.range img.rows).foldl
          (fun cm i => cm.set i
            (forLoop (img.cols * 3) 3 (deltaStep3 (img.ptr i)) (cm.getD i [])))
          (allocMatrix img.rows (img.cols * 3) uninit) := by
      unfold createConvertingMatrix
      simp only [loadedGlobals, h]
      rw [forLoop_one_eq_foldl]
    rw [hcm, h]
    rw [h] at halloc
    constructor
    · rw [foldl_modify_length (fun i row => forLoop (img.cols * 3) 3 (deltaStep3 (img.ptr i)) row)
        [] img.rows _, halloc]
    · intro i hi
      have hrow := foldl_modify_getElem?
        (fun i row => forLoop (img.cols * 3) 3 (deltaStep3 (img.ptr i)) row) []
        img.rows (allocMatrix img.rows (img.cols * 3) uninit) i
      rw [if_pos hi, allocMatrix_getElem? _ _ _ _ hi] at hrow
      rw [List.getD_eq_getElem?_getD, hrow]
      simp only [Option.map_some', Option.getD_some]
      rw [(deltaRow3 (img.ptr i) img.cols _).1]
      simp
  · have hcm : (createConvertingMatrix uninit (loadedGlobals img)).convertingMatrix =
        (List.range img.rows).foldl
          (fun cm i => cm.set i
            (forLoop (img.cols * 4) 4 (deltaStep4 (img.ptr i)) (cm.getD i [])))
          (allocMatrix img.rows (img.cols * 4) uninit) := by
      unfold createConvertingMatrix
      simp only [loadedGlobals, h]
      rw [forLoop_one_eq_foldl]
    rw [hcm, h]
    rw [h] at halloc
    constructor
    · rw [foldl_modify_length (fun i row => forLoop (img.cols * 4) 4 (deltaStep4 (img.ptr i)) row)
        [] img.rows _, halloc]
    · intro i hi
      have hrow := foldl_modify_getElem?
        (fun i row => forLoop (img.cols * 4) 4 (deltaStep4 (img.ptr i)) row) []
        img.rows (allocMatrix img.rows (img.cols * 4) uninit) i
      rw [if_pos hi, allocMatrix_getElem? _ _ _ _ hi] at hrow
      rw [List.getD_eq_getElem?_getD, hrow]
      simp only [Option.map_some', Option.getD_some]
      rw [(deltaRow4 (img.ptr i) img.cols _).1]
      simp

end ImageChange

/-! ## The claims -/

/-- C1. For every well-formed 3- or 4-channel image and every pixel of it, the delta matrix
built by `createConvertingMatrix` (as `main` of `ImageChange.cpp` calls it) and the one filled by
`fill_transform_matrix` (which returns, with every access inside the storages) hold at that
pixel: the delta of channel 0 is minus the channel 0 value, the delta of channel 1 is channel 2
minus channel 1, the delta of channel 2 is 255 minus channel 2, and with a 4th channel its delta
is 0. -/
theorem delta_matrix_formula
    (uninit : Nat → Nat → Int) (img : ImageChange.Mat) (hwf : img.WellFormed)
    (hch : img.channels = 3 ∨ img.channels = 4) (i k : Nat) (hi : i < img.rows)
    (hk : k < img.cols)
    (uninit2 : Nat → Int) (img2 : UnitedColorsEffect.Mat) (hwf2 : img2.WellFormed8U)
    (hch2 : img2.channels = 3 ∨ img2.channels = 4) (k2 : Nat) (hk2 : k2 < img2.total) :
    ((ImageChange.mainBuild uninit img).deltaAt i (k * img.channels)
        = some (-(img.px i (k * img.channels))) ∧
      (ImageChange.mainBuild uninit img).deltaAt i (k * img.channels + 1)
        = some (img.px i (k * img.channels + 2) - img.px i (k * img.channels + 1)) ∧
      (ImageChange.mainBuild uninit img).deltaAt i (k * img.channels + 2)
        = some (255 - img.px i (k * img.channels + 2)) ∧
      (img.channels = 4 →
        (ImageChange.mainBuild uninit img).deltaAt i (k * img.channels + 3) = some 0)) ∧
    (∃ tm, UnitedColorsEffect.fill_transform_matrix
        (UnitedColorsEffect.Mat.alloc img2.rows img2.cols
          (UnitedColorsEffect.CV_MAKETYPE UnitedColorsEffect.CV_16S img2.channels) uninit2)
        img2 = some tm ∧
      tm.data[k2 * img2.channels]? = some (-(img2.channelValue k2 0)) ∧
      tm.data[k2 * img2.channels + 1]?
        = some (img2.channelValue k2 2 - img2.channelValue k2 1) ∧
      tm.data[k2 * img2.channels + 2]? = some (255 - img2.channelValue k2 2) ∧
      (img2.channels = 4 → tm.data[k2 * img2.channels + 3]? = some 0)) := by
  constructor
  · rcases hch with h | h
    · rw [h]
      obtain ⟨e0, e1, e2⟩ := ImageChange.mainBuild_deltaAt3 uninit img hwf h i k hi hk
      exact ⟨e0, e1, e2, by omega⟩
    · rw [h]
      obtain ⟨e0, e1, e2, e3⟩ := ImageChange.mainBuild_deltaAt4 uninit img hwf h i k hi hk
      exact ⟨e0, e1, e2, fun _ => e3⟩
  · rcases hch2 with h | h
    · rw [h]
      obtain ⟨tm, htm, hval⟩ := UnitedColorsEffect.fill_transform_matrix_at3 uninit2 img2 hwf2 h
      obtain ⟨e0, e1, e2⟩ := hval k2 hk2
      exact ⟨tm, htm, e0, e1, e2, by omega⟩
    · rw [h]
      obtain ⟨tm, htm, hval⟩ :=
        UnitedColorsEffect.fill_transform_matrix_at4 uninit2 img2 hwf2 (by omega)
      obtain ⟨e0, e1, e2, e3⟩ := hval k2 hk2
      exact ⟨tm, htm, e0, e1, e2, fun _ => e3⟩

/-- C1 at the 1 x 1 image with the bytes 10, 100, 200 (and 50 as a 4th channel for
`fill_transform_matrix`): the deltas are -10, 100, 55 (and 0). -/
theorem delta_matrix_formula_witness :
    ((ImageChange.mainBuild (fun _ _ => 7) ⟨1, 1, 3, [[10, 100, 200]]⟩).deltaAt 0 0 = some (-10) ∧
      (ImageChange.mainBuild (fun _ _ => 7) ⟨1, 1, 3, [[10, 100, 200]]⟩).deltaAt 0 1 = some 100 ∧
      (ImageChange.mainBuild (fun _ _ => 7) ⟨1, 1, 3, [[10, 100, 200]]⟩).deltaAt 0 2 = some 55) ∧
    (UnitedColorsEffect.fill_transform_matrix
        (UnitedColorsEffect.Mat.alloc 1 1 27 (fun _ => 7)) ⟨1, 1, 24, [10, 100, 200, 50]⟩
      = some ⟨1, 1, 27, [-10, 100, 55, 0]⟩) := by
  have h := delta_matrix_formula (fun _ _ => 7) ⟨1, 1, 3, [[10, 100, 200]]⟩ (by decide)
    (Or.inl rfl) 0 0 (by decide) (by decide)
    (fun _ => 7) ⟨1, 1, 24, [10, 100, 200, 50]⟩ (by decide) (Or.inr rfl) 0 (by decide)
  refine ⟨⟨?_, ?_, ?_⟩, by decide⟩
  · simpa [ImageChange.Mat.px, ImageChange.Mat.ptr] using h.1.1
  · simpa [ImageChange.Mat.px, ImageChange.Mat.ptr] using h.1.2.1
  · simpa [ImageChange.Mat.px, ImageChange.Mat.ptr] using h.1.2.2.1


/-- C2. For every well-formed 3- or 4-channel image, the slider at position 0 makes
`onTrackbarChanged` produce, from the image and the delta matrix built from it, an output image
equal to the original image. -/
theorem intensity_zero_is_identity (uninit : Nat → Nat → Int) (img : ImageChange.Mat)
    (hwf : img.WellFormed) (hch : img.channels = 3 ∨ img.channels = 4) :
    (ImageChange.sliderMoved (ImageChange.mainBuild uninit img) 0).imgChanged = img := by
  have hne : img.channels ≠ 1 := by omega
  obtain ⟨f1, f2, f3, f4, _⟩ := ImageChange.mainBuild_fields uninit img hne
  have hdata : (ImageChange.sliderMoved (ImageChange.mainBuild uninit img) 0).imgChanged.data
      = img.data := by
    apply List.ext_getElem?
    intro i
    rw [ImageChange.sliderMoved, ImageChange.onTrackbarChanged_data_getElem?]
    simp only [f1, f2, f3, f4]
    by_cases hi : i < img.rows
    · obtain ⟨r1, _, r3⟩ := hwf.row hi
      rw [if_pos hi, r1, Option.map_some', ImageChange.blendRow_zero _ _ _ r3]
    · rw [if_neg hi]
  have hhead : ∀ a b : ImageChange.Mat, a.rows = b.rows → a.cols = b.cols →
      a.channels = b.channels → a.data = b.data → a = b := by
    intro a b h1 h2 h3 h4
    cases a; cases b; simp_all
  apply hhead
  · simp [ImageChange.sliderMoved, ImageChange.onTrackbarChanged, f1]
  · simp [ImageChange.sliderMoved, ImageChange.onTrackbarChanged, f1]
  · simp [ImageChange.sliderMoved, ImageChange.onTrackbarChanged, f1]
  · exact hdata

/-- C2 at a 1 x 2 image of 3 channels. -/
theorem intensity_zero_is_identity_witness :
    (ImageChange.sliderMoved
      (ImageChange.mainBuild (fun _ _ => 7) ⟨1, 2, 3, [[10, 100, 200, 0, 255, 31]]⟩) 0).imgChanged
      = ⟨1, 2, 3, [[10, 100, 200, 0, 255, 31]]⟩ :=
  intensity_zero_is_identity (fun _ _ => 7) ⟨1, 2, 3, [[10, 100, 200, 0, 255, 31]]⟩ (by decide)
    (Or.inl rfl)

/-- C3. For every well-formed 3- or 4-channel image and every pixel of it, the slider at
position 100 makes `onTrackbarChanged` produce, from the image and the delta matrix built from
it, channel 0 equal to 0 and channel 2 equal to 255, and for a 4-channel image channel 3 equal
to the original channel 3 value. -/
theorem intensity_full_output (uninit : Nat → Nat → Int) (img : ImageChange.Mat)
    (hwf : img.WellFormed) (hch : img.channels = 3 ∨ img.channels = 4) (i k : Nat)
    (hi : i < img.rows) (hk : k < img.cols) :
    (ImageChange.sliderMoved (ImageChange.mainBuild uninit img) 100).imgChanged.byteAt i
        (k * img.channels) = some 0 ∧
    (ImageChange.sliderMoved (ImageChange.mainBuild uninit img) 100).imgChanged.byteAt i
        (k * img.channels + 2) = some 255 ∧
    (img.channels = 4 → ∃ a, img.byteAt i (k * img.channels + 3) = some a ∧
      (ImageChange.sliderMoved (ImageChange.mainBuild uninit img) 100).imgChanged.byteAt i
        (k * img.channels + 3) = some a) := by
  have hne : img.channels ≠ 1 := by omega
  obtain ⟨_, r2, r3⟩ := hwf.row hi
  have hmul : (k + 1) * img.channels ≤ img.cols * img.channels :=
    Nat.mul_le_mul_right _ hk
  rw [Nat.succ_mul] at hmul
  have byte := fun j hj => ImageChange.mainBuild_sliderMoved_byteAt uninit img hwf hne 100 i j hi hj
  have b0 := r3 (k * img.channels)
  have b2 := r3 (k * img.channels + 2)
  have b3 := r3 (k * img.channels + 3)
  rcases hch with h | h
  · rw [h] at hmul b0 b2 ⊢
    obtain ⟨e0, _, e2⟩ := ImageChange.mainBuild_deltaAt3 uninit img hwf h i k hi hk
    have c0 := byte (k * 3) (by rw [h]; omega)
    have c2 := byte (k * 3 + 2) (by rw [h]; omega)
    rw [ImageChange.Globals.getD_of_deltaAt e0] at c0
    rw [ImageChange.Globals.getD_of_deltaAt e2] at c2
    refine ⟨?_, ?_, by omega⟩
    · rw [c0]
      exact congrArg some (by
        have := ImageChange.blendChannel_full ((img.ptr i).getD (k * 3) 0)
          (-(img.px i (k * 3))) b0 (by simp only [ImageChange.Mat.px]; omega)
          (by simp only [ImageChange.Mat.px]; omega)
        simpa [Cxx.toUchar, ImageChange.Mat.px] using this)
    · rw [c2]
      exact congrArg some (by
        have := ImageChange.blendChannel_full ((img.ptr i).getD (k * 3 + 2) 0)
          (255 - (img.px i (k * 3 + 2))) b2 (by simp only [ImageChange.Mat.px]; omega)
          (by simp only [ImageChange.Mat.px]; omega)
        simpa [Cxx.toUchar, ImageChange.Mat.px] using this)
  · rw [h] at hmul b0 b2 b3 r2 ⊢
    obtain ⟨e0, _, e2, e3⟩ := ImageChange.mainBuild_deltaAt4 uninit img hwf h i k hi hk
    have c0 := byte (k * 4) (by rw [h]; omega)
    have c2 := byte (k * 4 + 2) (by rw [h]; omega)
    have c3 := byte (k * 4 + 3) (by rw [h]; omega)
    rw [ImageChange.Globals.getD_of_deltaAt e0] at c0
    rw [ImageChange.Globals.getD_of_deltaAt e2] at c2
    rw [ImageChange.Globals.getD_of_deltaAt e3] at c3
    refine ⟨?_, ?_, fun _ => ⟨(img.ptr i).getD (k * 4 + 3) 0, ?_, ?_⟩⟩
    · rw [c0]
      exact congrArg some (by
        have := ImageChange.blendChannel_full ((img.ptr i).getD (k * 4) 0)
          (-(img.px i (k * 4))) b0 (by simp only [ImageChange.Mat.px]; omega)
          (by simp only [ImageChange.Mat.px]; omega)
        simpa [Cxx.toUchar, ImageChange.Mat.px] using this)
    · rw [c2]
      exact congrArg some (by
        have := ImageChange.blendChannel_full ((img.ptr i).getD (k * 4 + 2) 0)
          (255 - (img.px i (k * 4 + 2))) b2 (by simp only [ImageChange.Mat.px]; omega)
          (by simp only [ImageChange.Mat.px]; omega)
        simpa [Cxx.toUchar, ImageChange.Mat.px] using this)
    · rw [ImageChange.Mat.byteAt, List.getD_eq_getElem?_getD,
        List.getElem?_eq_getElem (by rw [r2]; omega)]
      rfl
    · rw [c3]
      exact congrArg some (by
        have := ImageChange.blendChannel_full ((img.ptr i).getD (k * 4 + 3) 0) 0 b3
          (by decide) (by decide)
        rw [this, Cxx.toUchar]
        omega)

/-- C3 at the 1 x 1 image with the bytes 10, 100, 200, 77. -/
theorem intensity_full_output_witness :
    (ImageChange.sliderMoved
      (ImageChange.mainBuild (fun _ _ => 7) ⟨1, 1, 4, [[10, 100, 200, 77]]⟩) 100).imgChanged.byteAt
        0 0 = some 0 ∧
    (ImageChange.sliderMoved
      (ImageChange.mainBuild (fun _ _ => 7) ⟨1, 1, 4, [[10, 100, 200, 77]]⟩) 100).imgChanged.byteAt
        0 2 = some 255 ∧
    (ImageChange.sliderMoved
      (ImageChange.mainBuild (fun _ _ => 7) ⟨1, 1, 4, [[10, 100, 200, 77]]⟩) 100).imgChanged.byteAt
        0 3 = some 77 := by
  have h := intensity_full_output (fun _ _ => 7) ⟨1, 1, 4, [[10, 100, 200, 77]]⟩ (by decide)
    (Or.inr rfl) 0 0 (by decide) (by decide)
  obtain ⟨h0, h2, h3⟩ := h
  obtain ⟨a, ha, hb⟩ := h3 rfl
  have ha2 : a = 77 := by
    have : (some 77 : Option Nat) = some a := ha
    exact (Option.some.inj this).symm
  subst ha2
  exact ⟨h0, h2, hb⟩

/-- C4 (as stated, refuted). At `v = 10`, `d = -10`, `p = 25` the code stores 7: it truncates
the sum `10 - 2.5 = 7.5` (every value here is a `double` without rounding).  Truncating the
product `-2.5` first gives `10 - 2 = 8`. -/
theorem blend_truncates_product_counterexample :
    ImageChange.blendChannel 10 (ImageChange.multiplierAt 25) (-10) = 7 ∧
    ImageChange.truncatedProductBlend 10 25 (-10) = 8 ∧
    ¬ (∀ (v : Nat) (p d : Int), v ≤ 255 → -255 ≤ d → d ≤ 255 → 0 ≤ p → p ≤ 100 →
      ImageChange.blendChannel v (ImageChange.multiplierAt p) d
        = ImageChange.truncatedProductBlend v p d) := by
  have h1 : ImageChange.blendChannel 10 (ImageChange.multiplierAt 25) (-10) = 7 := by
    rw [ImageChange.blendChannel_of_not_dvd 10 25 (-10) (by decide) (by decide) (by decide)
      (by decide) (by decide) (by decide)]
    decide
  have h2 : ImageChange.truncatedProductBlend 10 25 (-10) = 8 := by
    rw [ImageChange.truncatedProductBlend_eq_tdiv]
    decide
  refine ⟨h1, h2, ?_⟩
  intro h
  have h3 := h 10 25 (-10) (by decide) (by decide) (by decide) (by decide) (by decide)
  rw [h1, h2] at h3
  exact absurd h3 (by decide)

/-- C4 (amended). For every original value `v` in 0..255, every delta `d` in -255..255 and every
intensity `p` in 0..100, the value `onTrackbarChanged` stores is obtained by forming `p / 100`,
its product with `d` and the sum with `v` in `double` arithmetic, truncating that sum toward
zero and reducing it modulo 256 into 0..255 (wraparound, no saturation).  Against the exact
fraction: when 100 does not divide `p * d` the stored value is the exact sum
`v + (p / 100) * d` truncated toward zero (modulo 256); when 100 divides `p * d` the exact sum
is an integer and the stored value is that integer or, where rounding left the `double` sum
short of it, its neighbour toward zero (modulo 256). -/
theorem blend_truncates_sum (v : Nat) (p d : Int) (hv : v ≤ 255) (hd0 : -255 ≤ d)
    (hd1 : d ≤ 255) (hp0 : 0 ≤ p) (hp1 : p ≤ 100) :
    ImageChange.blendChannel v (ImageChange.multiplierAt p) d
      = (Cxx.truncToInt (Cxx.dadd (v : ℚ)
          (Cxx.dmul (Cxx.ddiv (p : ℚ) 100) (d : ℚ))) % 256).toNat ∧
    ImageChange.blendChannel v (ImageChange.multiplierAt p) d < 256 ∧
    (¬ (100 ∣ p * d) →
      ImageChange.blendChannel v (ImageChange.multiplierAt p) d
        = (Int.tdiv (100 * (v : Int) + p * d) 100 % 256).toNat) ∧
    (100 ∣ p * d →
      ImageChange.blendChannel v (ImageChange.multiplierAt p) d
        = (Int.tdiv (100 * (v : Int) + p * d) 100 % 256).toNat ∨
      (0 < Int.tdiv (100 * (v : Int) + p * d) 100 ∧
        ImageChange.blendChannel v (ImageChange.multiplierAt p) d
          = ((Int.tdiv (100 * (v : Int) + p * d) 100 - 1) % 256).toNat) ∨
      (Int.tdiv (100 * (v : Int) + p * d) 100 < 0 ∧
        ImageChange.blendChannel v (ImageChange.multiplierAt p) d
          = ((Int.tdiv (100 * (v : Int) + p * d) 100 + 1) % 256).toNat)) := by
  refine ⟨?_, ?_, ?_, ?_⟩
  · simp [ImageChange.blendChannel, ImageChange.blendValue, ImageChange.multiplierAt,
      ImageChange.EFFECT_SLIDER_MAX, Cxx.toUchar]
  · rw [ImageChange.blendChannel, Cxx.toUchar]
    omega
  · intro hnd
    exact ImageChange.blendChannel_of_not_dvd v p d hv hd0 hd1 hp0 hp1 hnd
  · intro hdvd
    exact ImageChange.blendChannel_of_dvd v p d hv hd0 hd1 hp0 hp1 hdvd

/-- C4 (amended) at `v = 0`, `d = 100`, `p = 29`: 100 divides `p * d`, the exact sum is 29, the
`double` sum lies just below it, and the code stores the neighbour 28. -/
theorem blend_truncates_sum_witness :
    ImageChange.blendChannel 0 (ImageChange.multiplierAt 29) 100 = 28 ∧
    Int.tdiv (100 * ((0 : Nat) : Int) + 29 * 100) 100 = 29 ∧
    (ImageChange.blendChannel 0 (ImageChange.multiplierAt 29) 100
        = (Int.tdiv (100 * ((0 : Nat) : Int) + 29 * 100) 100 % 256).toNat ∨
      (0 < Int.tdiv (100 * ((0 : Nat) : Int) + 29 * 100) 100 ∧
        ImageChange.blendChannel 0 (ImageChange.multiplierAt 29) 100
          = ((Int.tdiv (100 * ((0 : Nat) : Int) + 29 * 100) 100 - 1) % 256).toNat) ∨
      (Int.tdiv (100 * ((0 : Nat) : Int) + 29 * 100) 100 < 0 ∧
        ImageChange.blendChannel 0 (ImageChange.multiplierAt 29) 100
          = ((Int.tdiv (100 * ((0 : Nat) : Int) + 29 * 100) 100 + 1) % 256).toNat)) :=
  ⟨ImageChange.blendChannel_0_29_100, by decide,
    (blend_truncates_sum 0 29 100 (by decide) (by decide) (by decide) (by decide)
      (by decide)).2.2.2 (by decide)⟩

/-- C5. After the delta matrix was built, for every finite sequence of slider positions the
output image after the last of them is the output of a single call of `onTrackbarChanged` with
that position made directly after the build; repeating a position leaves the output as it is;
and no sequence of calls changes the original image or the delta matrix.  (`g` is any state of
the globals before `createConvertingMatrix`, so the image is arbitrary.) -/
theorem slider_sequence_independent (uninit : Nat → Nat → Int) (g : ImageChange.Globals)
    (events : List Int) (p : Int) :
    (ImageChange.runSlider (ImageChange.createConvertingMatrix uninit g) (events ++ [p])).imgChanged
      = (ImageChange.sliderMoved (ImageChange.createConvertingMatrix uninit g) p).imgChanged ∧
    (ImageChange.runSlider (ImageChange.createConvertingMatrix uninit g)
        (events ++ [p] ++ [p])).imgChanged
      = (ImageChange.runSlider (ImageChange.createConvertingMatrix uninit g)
        (events ++ [p])).imgChanged ∧
    (ImageChange.runSlider (ImageChange.createConvertingMatrix uninit g) events).imgOriginal
      = (ImageChange.createConvertingMatrix uninit g).imgOriginal ∧
    (ImageChange.runSlider (ImageChange.createConvertingMatrix uninit g) events).convertingMatrix
      = (ImageChange.createConvertingMatrix uninit g).convertingMatrix := by
  refine ⟨?_, ?_, ?_, ?_⟩
  · rw [ImageChange.runSlider_last]
  · rw [ImageChange.runSlider_last, ImageChange.runSlider_last]
  · induction events using List.reverseRecOn with
    | nil => rfl
    | append_singleton es e ih =>
      rw [ImageChange.runSlider_append, ImageChange.sliderMoved_imgOriginal, ih]
  · induction events using List.reverseRecOn with
    | nil => rfl
    | append_singleton es e ih =>
      rw [ImageChange.runSlider_append, ImageChange.sliderMoved_convertingMatrix, ih]

/-- C10. For every pixel of a well-formed 3- or 4-channel image, with the delta matrix built
from it by `createConvertingMatrix`, and for every intensity `p` in 0..100, the value
`original + (p / 100) * delta` computed in `onTrackbarChanged` lies: for channel 0 between 0 and
the original value, for channel 1 between the original channel 1 and channel 2 values, for
channel 2 between the original value and 255, and for channel 3 it is the original value.  This
holds for the `double` the code computes (first four parts) and for the value with `p / 100`
taken as an exact fraction (last part).  Hence for every channel the computed `double` lies in
0..255, the narrowing cast does not wrap, and the stored byte is the one saturation would
give. -/
theorem blend_never_wraps (uninit : Nat → Nat → Int) (img : ImageChange.Mat)
    (hwf : img.WellFormed) (hch : img.channels = 3 ∨ img.channels = 4) (p : Int)
    (hp0 : 0 ≤ p) (hp1 : p ≤ 100) (i k : Nat) (hi : i < img.rows) (hk : k < img.cols) :
    (0 ≤ (ImageChange.mainBuild uninit img).computedValue i (k * img.channels) p ∧
      (ImageChange.mainBuild uninit img).computedValue i (k * img.channels) p
        ≤ (img.px i (k * img.channels) : ℚ)) ∧
    (min (img.px i (k * img.channels + 1) : ℚ) (img.px i (k * img.channels + 2) : ℚ)
        ≤ (ImageChange.mainBuild uninit img).computedValue i (k * img.channels + 1) p ∧
      (ImageChange.mainBuild uninit img).computedValue i (k * img.channels + 1) p
        ≤ max (img.px i (k * img.channels + 1) : ℚ) (img.px i (k * img.channels + 2) : ℚ)) ∧
    ((img.px i (k * img.channels + 2) : ℚ)
        ≤ (ImageChange.mainBuild uninit img).computedValue i (k * img.channels + 2) p ∧
      (ImageChange.mainBuild uninit img).computedValue i (k * img.channels + 2) p ≤ 255) ∧
    (img.channels = 4 →
      (ImageChange.mainBuild uninit img).computedValue i (k * img.channels + 3) p
        = (img.px i (k * img.channels + 3) : ℚ)) ∧
    (∀ c, c < img.channels →
      0 ≤ (ImageChange.mainBuild uninit img).computedValue i (k * img.channels + c) p ∧
      (ImageChange.mainBuild uninit img).computedValue i (k * img.channels + c) p ≤ 255 ∧
      (ImageChange.sliderMoved (ImageChange.mainBuild uninit img) p).imgChanged.byteAt i
          (k * img.channels + c)
        = some (Cxx.saturateUchar (Cxx.truncToInt
            ((ImageChange.mainBuild uninit img).computedValue i (k * img.channels + c) p))) ∧
      Cxx.toUchar (Cxx.truncToInt
          ((ImageChange.mainBuild uninit img).computedValue i (k * img.channels + c) p))
        = Cxx.saturateUchar (Cxx.truncToInt
          ((ImageChange.mainBuild uninit img).computedValue i (k * img.channels + c) p))) ∧
    ((0 ≤ (ImageChange.mainBuild uninit img).exactValueAt i (k * img.channels) p ∧
        (ImageChange.mainBuild uninit img).exactValueAt i (k * img.channels) p
          ≤ (img.px i (k * img.channels) : ℚ)) ∧
      (min (img.px i (k * img.channels + 1) : ℚ) (img.px i (k * img.channels + 2) : ℚ)
          ≤ (ImageChange.mainBuild uninit img).exactValueAt i (k * img.channels + 1) p ∧
        (ImageChange.mainBuild uninit img).exactValueAt i (k * img.channels + 1) p
          ≤ max (img.px i (k * img.channels + 1) : ℚ) (img.px i (k * img.channels + 2) : ℚ)) ∧
      ((img.px i (k * img.channels + 2) : ℚ)
          ≤ (ImageChange.mainBuild uninit img).exactValueAt i (k * img.channels + 2) p ∧
        (ImageChange.mainBuild uninit img).exactValueAt i (k * img.channels + 2) p ≤ 255) ∧
      (img.channels = 4 →
        (ImageChange.mainBuild uninit img).exactValueAt i (k * img.channels + 3) p
          = (img.px i (k * img.channels + 3) : ℚ))) := by
  have hne : img.channels ≠ 1 := by omega
  obtain ⟨hm0, hm1⟩ := ImageChange.multiplier_bounds p hp0 hp1
  obtain ⟨_, r2, r3⟩ := hwf.row hi
  have hmul : (k + 1) * img.channels ≤ img.cols * img.channels :=
    Nat.mul_le_mul_right _ hk
  rw [Nat.succ_mul] at hmul
  have cast255 : ∀ j, (((img.ptr i).getD j 0 : Nat) : ℚ) ≤ 255 := by
    intro j
    have : (img.ptr i).getD j 0 ≤ 255 := by have := r3 j; omega
    exact_mod_cast this
  have cast0 : ∀ j, (0 : ℚ) ≤ (((img.ptr i).getD j 0 : Nat) : ℚ) := fun j => Nat.cast_nonneg _
  have px_eq : ∀ j, ((img.px i j : Int) : ℚ) = (((img.ptr i).getD j 0 : Nat) : ℚ) := by
    intro j; simp [ImageChange.Mat.px]
  have stored := fun j hj h0 h1 =>
    ImageChange.mainBuild_stored_of_bounds uninit img hwf hne p i j hi hj h0 h1
  rcases hch with h | h
  · obtain ⟨e0, e1, e2⟩ := ImageChange.mainBuild_deltaAt3 uninit img hwf h i k hi hk
    have x0 := ImageChange.computedValue_eq uninit img hne p i _ _ e0
    have x1 := ImageChange.computedValue_eq uninit img hne p i _ _ e1
    have x2 := ImageChange.computedValue_eq uninit img hne p i _ _ e2
    simp only [ImageChange.Mat.px] at x0 x1 x2
    have c0 := ImageChange.blendValue_channel0 ((img.ptr i).getD (k * 3) 0) _ (r3 _) hm0 hm1
    have y0 := ImageChange.exactValue_channel0 ((img.ptr i).getD (k * 3) 0) p hp0 hp1
    have c1 := ImageChange.blendValue_channel1 ((img.ptr i).getD (k * 3 + 1) 0)
      ((img.ptr i).getD (k * 3 + 2) 0) _ (r3 _) (r3 _) hm0 hm1
    have y1 := ImageChange.exactValue_channel1 ((img.ptr i).getD (k * 3 + 1) 0)
      ((img.ptr i).getD (k * 3 + 2) 0) p hp0 hp1
    have c2 := ImageChange.blendValue_channel2 ((img.ptr i).getD (k * 3 + 2) 0) _
      (r3 _) hm0 hm1
    have y2 := ImageChange.exactValue_channel2 ((img.ptr i).getD (k * 3 + 2) 0) p
      (r3 _) hp0 hp1
    have z0 := ImageChange.exactValueAt_eq uninit img hne p i _ _ e0
    have z1 := ImageChange.exactValueAt_eq uninit img hne p i _ _ e1
    have z2 := ImageChange.exactValueAt_eq uninit img hne p i _ _ e2
    simp only [ImageChange.Mat.px] at z0 z1 z2
    rw [← z0] at y0
    rw [← z1] at y1
    rw [← z2] at y2
    rw [← x0] at c0
    rw [← x1] at c1
    rw [← x2] at c2
    rw [h] at hmul ⊢
    simp only [px_eq]
    refine ⟨c0, c1, c2, by omega, ?_, y0, y1, y2, by omega⟩
    intro c hc
    have hc3 : c = 0 ∨ c = 1 ∨ c = 2 := by omega
    have b0 := cast255 (k * 3)
    have b1 := cast255 (k * 3 + 1)
    have b2 := cast255 (k * 3 + 2)
    have n1 := cast0 (k * 3 + 1)
    have n2 := cast0 (k * 3 + 2)
    rcases hc3 with rfl | rfl | rfl
    · have l0 := c0.1
      have u0 := le_trans c0.2 b0
      exact ⟨l0, u0, stored (k * 3 + 0) (by rw [h]; omega) l0 u0⟩
    · have l1 := le_trans (le_min n1 n2) c1.1
      have u1 := le_trans c1.2 (max_le b1 b2)
      exact ⟨l1, u1, stored (k * 3 + 1) (by rw [h]; omega) l1 u1⟩
    · have l2 := le_trans n2 c2.1
      exact ⟨l2, c2.2, stored (k * 3 + 2) (by rw [h]; omega) l2 c2.2⟩
  · obtain ⟨e0, e1, e2, e3⟩ := ImageChange.mainBuild_deltaAt4 uninit img hwf h i k hi hk
    have x0 := ImageChange.computedValue_eq uninit img hne p i _ _ e0
    have x1 := ImageChange.computedValue_eq uninit img hne p i _ _ e1
    have x2 := ImageChange.computedValue_eq uninit img hne p i _ _ e2
    have x3 := ImageChange.computedValue_eq uninit img hne p i _ _ e3
    simp only [ImageChange.Mat.px] at x0 x1 x2
    have c0 := ImageChange.blendValue_channel0 ((img.ptr i).getD (k * 4) 0) _ (r3 _) hm0 hm1
    have y0 := ImageChange.exactValue_channel0 ((img.ptr i).getD (k * 4) 0) p hp0 hp1
    have c1 := ImageChange.blendValue_channel1 ((img.ptr i).getD (k * 4 + 1) 0)
      ((img.ptr i).getD (k * 4 + 2) 0) _ (r3 _) (r3 _) hm0 hm1
    have y1 := ImageChange.exactValue_channel1 ((img.ptr i).getD (k * 4 + 1) 0)
      ((img.ptr i).getD (k * 4 + 2) 0) p hp0 hp1
    have c2 := ImageChange.blendValue_channel2 ((img.ptr i).getD (k * 4 + 2) 0) _
      (r3 _) hm0 hm1
    have y2 := ImageChange.exactValue_channel2 ((img.ptr i).getD (k * 4 + 2) 0) p
      (r3 _) hp0 hp1
    have z0 := ImageChange.exactValueAt_eq uninit img hne p i _ _ e0
    have z1 := ImageChange.exactValueAt_eq uninit img hne p i _ _ e1
    have z2 := ImageChange.exactValueAt_eq uninit img hne p i _ _ e2
    simp only [ImageChange.Mat.px] at z0 z1 z2
    rw [← z0] at y0
    rw [← z1] at y1
    rw [← z2] at y2
    have c3 := ImageChange.blendValue_channel3 ((img.ptr i).getD (k * 4 + 3) 0)
      (ImageChange.multiplierAt p) (r3 _)
    have y3 := ImageChange.exactValue_channel3 ((img.ptr i).getD (k * 4 + 3) 0) p
    have z3 := ImageChange.exactValueAt_eq uninit img hne p i _ _ e3
    rw [← z3] at y3
    rw [← x0] at c0
    rw [← x1] at c1
    rw [← x2] at c2
    rw [← x3] at c3
    rw [h] at hmul ⊢
    simp only [px_eq]
    refine ⟨c0, c1, c2, fun _ => c3, ?_, y0, y1, y2, fun _ => y3⟩
    intro c hc
    have hc4 : c = 0 ∨ c = 1 ∨ c = 2 ∨ c = 3 := by omega
    have b0 := cast255 (k * 4)
    have b1 := cast255 (k * 4 + 1)
    have b2 := cast255 (k * 4 + 2)
    have b3 := cast255 (k * 4 + 3)
    have n1 := cast0 (k * 4 + 1)
    have n2 := cast0 (k * 4 + 2)
    have n3 := cast0 (k * 4 + 3)
    rcases hc4 with rfl | rfl | rfl | rfl
    · have l0 := c0.1
      have u0 := le_trans c0.2 b0
      exact ⟨l0, u0, stored (k * 4 + 0) (by rw [h]; omega) l0 u0⟩
    · have l1 := le_trans (le_min n1 n2) c1.1
      have u1 := le_trans c1.2 (max_le b1 b2)
      exact ⟨l1, u1, stored (k * 4 + 1) (by rw [h]; omega) l1 u1⟩
    · have l2 := le_trans n2 c2.1
      exact ⟨l2, c2.2, stored (k * 4 + 2) (by rw [h]; omega) l2 c2.2⟩
    · have l3 : 0 ≤ (ImageChange.mainBuild uninit img).computedValue i (k * 4 + 3) p := by
        rw [c3]; exact n3
      have u3 : (ImageChange.mainBuild uninit img).computedValue i (k * 4 + 3) p ≤ 255 := by
        rw [c3]; exact b3
      exact ⟨l3, u3, stored (k * 4 + 3) (by rw [h]; omega) l3 u3⟩

/-- C10 at the 1 x 1 image with the bytes 10, 100, 200, channel 2, slider at 50. -/
theorem blend_never_wraps_witness :
    (ImageChange.sliderMoved
      (ImageChange.mainBuild (fun _ _ => 7) ⟨1, 1, 3, [[10, 100, 200]]⟩) 50).imgChanged.byteAt 0 2
      = some (Cxx.saturateUchar (Cxx.truncToInt
        ((ImageChange.mainBuild (fun _ _ => 7) ⟨1, 1, 3, [[10, 100, 200]]⟩).computedValue
          0 2 50))) :=
  ((blend_never_wraps (fun _ _ => 7) ⟨1, 1, 3, [[10, 100, 200]]⟩ (by decide) (Or.inl rfl) 50
    (by decide) (by decide) 0 0 (by decide) (by decide)).2.2.2.2.1 2 (by decide)).2.2.1

/-- C9. For every input string whose doubled form fits the `int` index (its length plus its
number of backslashes is at most `INT_MAX`), `convert_slash_string` and the same loop in
`getFilePath` terminate and leave the input with every backslash replaced by two backslashes and
every other character unchanged and in the same order; the length of the result is the length of
the input plus the number of backslashes in it. -/
theorem backslashes_are_doubled (s : List Char)
    (h : s.length + s.count '\\' ≤ Cxx.INT_MAX) :
    UnitedColorsEffect.convert_slash_string s = some (Cxx.doubleBackslashes s) ∧
    ImageChange.getFilePath s = some (Cxx.doubleBackslashes s) ∧
    (Cxx.doubleBackslashes s).length = s.length + s.count '\\' := by
  have hlen := Cxx.doubleBackslashes_length s
  have hloop := Cxx.slashLoop_spec s [] (s.length + 1) (Nat.lt_succ_self _)
    (by rw [hlen]; simpa using h)
  simp only [List.nil_append, List.length_nil] at hloop
  exact ⟨hloop, hloop, hlen⟩

/-- C9 at a string of seven characters, three of them backslashes. -/
theorem backslashes_are_doubled_witness :
    UnitedColorsEffect.convert_slash_string ['C', ':', '\\', 'a', '\\', '\\', 'b']
      = some ['C', ':', '\\', '\\', 'a', '\\', '\\', '\\', '\\', 'b'] ∧
    ImageChange.getFilePath ['C', ':', '\\', 'a', '\\', '\\', 'b']
      = some ['C', ':', '\\', '\\', 'a', '\\', '\\', '\\', '\\', 'b'] := by
  have h := backslashes_are_doubled ['C', ':', '\\', 'a', '\\', '\\', 'b'] (by decide)
  exact ⟨h.1, h.2.1⟩

/-- C6 (as stated, refuted). For a state with 2 channels `createConvertingMatrix` returns with
the matrix as allocated, no entry written.  For a grey image of 4 pixels `fill_transform_matrix`
takes the 4-channel branch and reads past the end of the image storage: undefined behaviour.
Neither reports an unsupported format. -/
theorem unsupported_channels_counterexample :
    (ImageChange.createConvertingMatrix (fun _ _ => 7)
        (ImageChange.loadedGlobals ⟨1, 2, 2, [[5, 6, 8, 9]]⟩)).convertingMatrix
      = [[7, 7, 7, 7]] ∧
    UnitedColorsEffect.fill_transform_matrix
        (UnitedColorsEffect.Mat.alloc 1 4 UnitedColorsEffect.CV_16SC4 (fun _ => 7))
        ⟨1, 4, 0, [5, 6, 8, 9]⟩ = none := by
  constructor
  · rw [ImageChange.createConvertingMatrix_other _ _ (by decide) (by decide)]
    decide
  · decide

/-- C6 (amended). For an image whose channel count is neither 3 nor 4, building the delta matrix
reports no unsupported format.  `createConvertingMatrix` returns with the matrix allocated
(`nRows` rows) and every entry `[i][j]` still holding the indeterminate value it was allocated
with, and with the image cloned into `imgChanged`.  `fill_transform_matrix` takes the 4-channel
branch: on a non-empty image of 1 or 2 channels that branch reads past the end of the image
storage, which is undefined behaviour; on an image of 5 or more channels it returns the matrix
`main` allocates under the RGBA hint with every pixel filled by the 4-channel rule from the
first three bytes of the pixel (minus byte 0, byte 2 minus byte 1, 255 minus byte 2, and 0). -/
theorem unsupported_channels_build_silently
    (uninit : Nat → Nat → Int) (g : ImageChange.Globals) (h3 : g.nChannels ≠ 3)
    (h4 : g.nChannels ≠ 4)
    (uninit2 : Nat → Int) (tm img2 : UnitedColorsEffect.Mat) (hwf2 : img2.WellFormed8U) :
    ((ImageChange.createConvertingMatrix uninit g).convertingMatrix.length = g.nRows ∧
      (∀ i j, i < g.nRows → j < g.nCols →
        (ImageChange.createConvertingMatrix uninit g).deltaAt i j = some (uninit i j)) ∧
      (ImageChange.createConvertingMatrix uninit g).imgChanged = g.imgOriginal) ∧
    (img2.channels ≤ 2 → 0 < img2.total →
      UnitedColorsEffect.fill_transform_matrix tm img2 = none) ∧
    (5 ≤ img2.channels →
      ∃ tm2, UnitedColorsEffect.fill_transform_matrix
          (UnitedColorsEffect.Mat.alloc img2.rows img2.cols UnitedColorsEffect.CV_16SC4 uninit2)
          img2 = some tm2 ∧
        ∀ k, k < img2.total →
          tm2.data[k * 4]? = some (-(img2.channelValue k 0)) ∧
          tm2.data[k * 4 + 1]? = some (img2.channelValue k 2 - img2.channelValue k 1) ∧
          tm2.data[k * 4 + 2]? = some (255 - img2.channelValue k 2) ∧
          tm2.data[k * 4 + 3]? = some 0) := by
  refine ⟨?_, ?_, ?_⟩
  · rw [ImageChange.createConvertingMatrix_other uninit g h3 h4]
    refine ⟨by simp [ImageChange.allocMatrix], ?_, rfl⟩
    intro i j hi hj
    simp only [ImageChange.Globals.deltaAt]
    rw [List.getD_eq_getElem?_getD, ImageChange.allocMatrix_getElem? _ _ _ _ hi]
    simp [List.getElem?_map, List.getElem?_range hj]
  · intro hch hpos
    exact UnitedColorsEffect.fill_transform_matrix_undefined tm img2 hwf2.1 hch hpos
  · intro hch
    exact UnitedColorsEffect.fill_transform_matrix_at4 uninit2 img2 hwf2 (by omega)

/-- C6 (amended) at a 1 x 1 image of 2 channels for `createConvertingMatrix` and at a grey image
of 4 pixels for `fill_transform_matrix`. -/
theorem unsupported_channels_build_silently_witness :
    (ImageChange.createConvertingMatrix (fun _ _ => 7)
        (ImageChange.loadedGlobals ⟨1, 1, 2, [[5, 6]]⟩)).deltaAt 0 1 = some 7 ∧
    UnitedColorsEffect.fill_transform_matrix
        (UnitedColorsEffect.Mat.alloc 1 4 UnitedColorsEffect.CV_16SC4 (fun _ => 7))
        ⟨1, 4, 0, [5, 6, 8, 9]⟩ = none := by
  have h := unsupported_channels_build_silently (fun _ _ => 7)
    (ImageChange.loadedGlobals ⟨1, 1, 2, [[5, 6]]⟩) (by decide) (by decide)
    (fun _ => 7) (UnitedColorsEffect.Mat.alloc 1 4 UnitedColorsEffect.CV_16SC4 (fun _ => 7))
    ⟨1, 4, 0, [5, 6, 8, 9]⟩ (by decide)
  exact ⟨h.1.2.1 0 1 (by decide) (by decide), h.2.1 (by decide) (by decide)⟩

/-- C7 (as stated, refuted). With the command line `effect in.png out.png 4` and a codec that
returns a 3-channel image, `main` of `united_colors_effect.cpp` allocates a delta matrix of 4
channels for the 3-channel image. -/
theorem rgba_hint_mismatch_counterexample :
    ∃ s, UnitedColorsEffect.mainSetup
        [['e', 'f', 'f', 'e', 'c', 't'], ['i', 'n', '.', 'p', 'n', 'g'],
          ['o', 'u', 't', '.', 'p', 'n', 'g'], ['4']]
        (fun _ _ => ⟨1, 1, 16, [10, 100, 200]⟩) (fun _ _ => 7) = Except.ok s ∧
      s.img_original.channels = 3 ∧ s.transform_matrix.channels = 4 := by
  refine ⟨_, rfl, ?_, ?_⟩ <;> decide

/-- C7 (amended). For every successfully loaded image and every accepted command line, the
delta matrix that `main` of `united_colors_effect.cpp` allocates and gives to the builder has the
rows and the columns of the loaded image, and its channel count is 4 when the command line
carries the hint `4` and 3 otherwise; so it is the channel count of the image exactly when the
image has 4 channels under the hint and 3 channels without it.  In `ImageChange.cpp` the matrix
that `main` allocates for a 3- or 4-channel image has one row for each image row, each with
`cols * channels` entries, and `nChannels` is the channel count of the image. -/
theorem delta_matrix_shape (argv : List (List Char))
    (imread : List Char → Int → UnitedColorsEffect.Mat) (uninit : Nat → Nat → Int)
    (s : UnitedColorsEffect.Session)
    (h : UnitedColorsEffect.mainSetup argv imread uninit = Except.ok s)
    (uninit2 : Nat → Nat → Int) (img : ImageChange.Mat)
    (hch : img.channels = 3 ∨ img.channels = 4) :
    (s.transform_matrix.rows = s.img_original.rows ∧
      s.transform_matrix.cols = s.img_original.cols ∧
      s.transform_matrix.channels = (if UnitedColorsEffect.rgbaHint argv then 4 else 3) ∧
      (s.transform_matrix.channels = s.img_original.channels ↔
        s.img_original.channels = (if UnitedColorsEffect.rgbaHint argv then 4 else 3))) ∧
    ((ImageChange.mainBuild uninit2 img).convertingMatrix.length = img.rows ∧
      (∀ i, i < img.rows →
        ((ImageChange.mainBuild uninit2 img).convertingMatrix.getD i []).length
          = img.cols * img.channels) ∧
      (ImageChange.mainBuild uninit2 img).nChannels = img.channels) := by
  obtain ⟨_, htm, _⟩ := UnitedColorsEffect.mainSetup_ok argv imread uninit s h
  obtain ⟨h1, h2, h3⟩ := UnitedColorsEffect.fill_transform_matrix_header _ _ _ htm
  have hchan : s.transform_matrix.channels
      = (if UnitedColorsEffect.rgbaHint argv then 4 else 3) := by
    rw [UnitedColorsEffect.Mat.channels, h3]
    cases UnitedColorsEffect.rgbaHint argv <;>
      simp [UnitedColorsEffect.Mat.alloc, UnitedColorsEffect.CV_16SC3,
        UnitedColorsEffect.CV_16SC4, UnitedColorsEffect.CV_MAKETYPE, UnitedColorsEffect.CV_16S]
  obtain ⟨s1, s2⟩ := ImageChange.mainBuild_shape uninit2 img hch
  refine ⟨⟨h1, h2, hchan, ?_⟩, s1, s2, ?_⟩
  · rw [hchan]
    exact eq_comm
  · exact (ImageChange.mainBuild_fields uninit2 img (by omega)).2.2.2.2

/-- C7 (amended), at the command line `effect in.png out.png` and a 1 x 1 image of 3
channels. -/
theorem delta_matrix_shape_witness :
    ∃ s, UnitedColorsEffect.mainSetup
        [['e', 'f', 'f', 'e', 'c', 't'], ['i', 'n', '.', 'p', 'n', 'g'],
          ['o', 'u', 't', '.', 'p', 'n', 'g']]
        (fun _ _ => ⟨1, 1, 16, [10, 100, 200]⟩) (fun _ _ => 7) = Except.ok s ∧
      s.transform_matrix.rows = s.img_original.rows ∧
      s.transform_matrix.cols = s.img_original.cols ∧
      s.transform_matrix.channels = s.img_original.channels ∧
      (ImageChange.mainBuild (fun _ _ => 7) ⟨1, 1, 3, [[10, 100, 200]]⟩).convertingMatrix.length
        = 1 := by
  refine ⟨_, rfl, ?_⟩
  have h := delta_matrix_shape
    [['e', 'f', 'f', 'e', 'c', 't'], ['i', 'n', '.', 'p', 'n', 'g'],
      ['o', 'u', 't', '.', 'p', 'n', 'g']]
    (fun _ _ => ⟨1, 1, 16, [10, 100, 200]⟩) (fun _ _ => 7) _ rfl (fun _ _ => 7)
    ⟨1, 1, 3, [[10, 100, 200]]⟩ (Or.inl rfl)
  exact ⟨h.1.1, h.1.2.1, h.1.2.2.2.mpr (by decide), h.2.1⟩

/-- C8 (the code at the failing input). In `united_colors_effect.cpp`, whenever `main` reaches
`image_save`, the image it hands over is the matrix `img_changed` allocated before the window
opened, with its indeterminate content, whatever the slider did: the callback writes the storage
of `context.changed_img`, which `create` allocated separately.  In `ImageChange.cpp` the image
handed to `cv::imwrite` is the output of the most recent callback. -/
theorem saved_image_ignores_slider (argv : List (List Char))
    (imread : List Char → Int → UnitedColorsEffect.Mat) (uninit : Nat → Nat → Int)
    (events : List Int) (path : List Char) (img : UnitedColorsEffect.Mat)
    (h : UnitedColorsEffect.main argv imread uninit events = UnitedColorsEffect.Outcome.saved path img)
    (uninit2 : Nat → Nat → Int) (img2 : ImageChange.Mat) (events2 : List Int) (p : Int) :
    (∃ s, UnitedColorsEffect.mainSetup argv imread uninit = Except.ok s ∧
      img = UnitedColorsEffect.Mat.alloc s.img_original.rows s.img_original.cols
        s.img_original.type (uninit 0)) ∧
    ImageChange.main uninit2 img2 (events2 ++ [p])
      = (ImageChange.sliderMoved
          (ImageChange.runSlider (ImageChange.mainBuild uninit2 img2) events2) p).imgChanged := by
  constructor
  · unfold UnitedColorsEffect.main at h
    cases hs : UnitedColorsEffect.mainSetup argv imread uninit with
    | error why =>
      rw [hs] at h
      cases h
    | ok s =>
      rw [hs] at h
      simp only at h
      cases hr : UnitedColorsEffect.runSlider s.context events with
      | none =>
        rw [hr] at h
        cases h
      | some c =>
        rw [hr] at h
        simp only at h
        cases hp : UnitedColorsEffect.convert_slash_string (argv.getD 2 []) with
        | none =>
          rw [hp] at h
          cases h
        | some file_path =>
          rw [hp] at h
          simp only [UnitedColorsEffect.Outcome.saved.injEq] at h
          refine ⟨s, rfl, ?_⟩
          rw [← h.2]
          exact (UnitedColorsEffect.mainSetup_ok argv imread uninit s hs).1
  · rw [ImageChange.main, ImageChange.runSlider_append, ImageChange.saveChangedImage]
    split <;> rfl

/-- C8 at the failing input: the command line `effect in.png out.png`, a 1 x 1 image with the
bytes 10, 100, 200, indeterminate memory reading 7, and the slider moved once to 100.  The
callback computes 0, 200, 255; `main` hands the bytes 7, 7, 7 to `image_save`. -/
theorem saved_image_ignores_slider_witness :
    UnitedColorsEffect.main
        [['e', 'f', 'f', 'e', 'c', 't'], ['i', 'n', '.', 'p', 'n', 'g'],
          ['o', 'u', 't', '.', 'p', 'n', 'g']]
        (fun _ _ => ⟨1, 1, 16, [10, 100, 200]⟩) (fun _ _ => 7) [100]
      = UnitedColorsEffect.Outcome.saved ['o', 'u', 't', '.', 'p', 'n', 'g']
          ⟨1, 1, 16, [7, 7, 7]⟩ ∧
    (∃ s, UnitedColorsEffect.mainSetup
        [['e', 'f', 'f', 'e', 'c', 't'], ['i', 'n', '.', 'p', 'n', 'g'],
          ['o', 'u', 't', '.', 'p', 'n', 'g']]
        (fun _ _ => ⟨1, 1, 16, [10, 100, 200]⟩) (fun _ _ => 7) = Except.ok s ∧
      (UnitedColorsEffect.runSlider s.context [100]).map (fun c => c.changed_img.data)
        = some [0, 200, 255] ∧
      (⟨1, 1, 16, [7, 7, 7]⟩ : UnitedColorsEffect.Mat)
        = UnitedColorsEffect.Mat.alloc s.img_original.rows s.img_original.cols
          s.img_original.type 7) := by
  have hcb : UnitedColorsEffect.on_trackbar_changed
      ⟨⟨1, 1, 19, [10, 100, 200]⟩, ⟨1, 1, 19, [-10, 100, 55]⟩, ⟨1, 1, 16, [7, 7, 7]⟩, 100⟩
      = some ⟨⟨1, 1, 19, [10, 100, 200]⟩, ⟨1, 1, 19, [-10, 100, 55]⟩,
          ⟨1, 1, 16, [0, 200, 255]⟩, 100⟩ := by
    rw [UnitedColorsEffect.on_trackbar_changed_full _ rfl (by decide)]
    decide
  have hs : UnitedColorsEffect.mainSetup
      [['e', 'f', 'f', 'e', 'c', 't'], ['i', 'n', '.', 'p', 'n', 'g'],
        ['o', 'u', 't', '.', 'p', 'n', 'g']]
      (fun _ _ => ⟨1, 1, 16, [10, 100, 200]⟩) (fun _ _ => 7)
      = Except.ok ⟨⟨1, 1, 16, [10, 100, 200]⟩, ⟨1, 1, 16, [7, 7, 7]⟩,
          ⟨1, 1, 19, [-10, 100, 55]⟩,
          ⟨⟨1, 1, 19, [10, 100, 200]⟩, ⟨1, 1, 19, [-10, 100, 55]⟩, ⟨1, 1, 16, [7, 7, 7]⟩, 0⟩⟩ := by
    rfl
  have hrun : UnitedColorsEffect.runSlider
      ⟨⟨1, 1, 19, [10, 100, 200]⟩, ⟨1, 1, 19, [-10, 100, 55]⟩, ⟨1, 1, 16, [7, 7, 7]⟩, 0⟩ [100]
      = some ⟨⟨1, 1, 19, [10, 100, 200]⟩, ⟨1, 1, 19, [-10, 100, 55]⟩,
          ⟨1, 1, 16, [0, 200, 255]⟩, 100⟩ := by
    simp only [UnitedColorsEffect.runSlider, hcb, Option.some_bind]
  have hmain : UnitedColorsEffect.main
      [['e', 'f', 'f', 'e', 'c', 't'], ['i', 'n', '.', 'p', 'n', 'g'],
        ['o', 'u', 't', '.', 'p', 'n', 'g']]
      (fun _ _ => ⟨1, 1, 16, [10, 100, 200]⟩) (fun _ _ => 7) [100]
      = UnitedColorsEffect.Outcome.saved ['o', 'u', 't', '.', 'p', 'n', 'g']
          ⟨1, 1, 16, [7, 7, 7]⟩ := by
    unfold UnitedColorsEffect.main
    rw [hs]
    simp only [hrun]
    rfl
  have h := (saved_image_ignores_slider _ _ _ _ _ _ hmain (fun _ _ => 7)
    ⟨1, 1, 3, [[10, 100, 200]]⟩ [] 0).1
  obtain ⟨s, hs2, himg⟩ := h
  refine ⟨hmain, s, hs2, ?_, himg⟩
  rw [hs] at hs2
  have hs3 := Except.ok.inj hs2
  subst hs3
  rw [hrun]
  rfl
